import Mathlib

set_option maxRecDepth 8000

/-!
Shallow embedding of the crossword CSP solver of generate.py
(class CrosswordCreator).

Modelling conventions:
* Python strings are lists of characters (Word).
* Python dicts are association lists kept in insertion order; the dict
  invariant (no duplicate keys) holds for every dict the program builds.
* Python sets (the domains) are kept as duplicate-free lists in some fixed
  iteration order; Python set iteration order is unspecified, so one fixed
  order is a legitimate determinization.
* A raised Python exception (KeyError, TypeError, IndexError) is modelled by
  an Option-valued function returning none.
* The two unbounded loops (the ac3 worklist and the backtracking recursion)
  are written with an explicit fuel argument so that every definition is
  structurally recursive and computable; the wrappers supply fuel exceeding
  the worst-case number of loop steps, and all theorems either quantify over
  the fuel or hypothesise a returned value, so fuel exhaustion (an extra
  source of none) never makes a statement about a run that Python completes.
-/

/-- Modelled from the spec: slot identity is (row, column, direction, length),
direction one of ACROSS and DOWN.  This is class Variable of crossword.py,
which is not among the sources. -/
inductive Direction where
  | across
  | down
deriving DecidableEq

/-- Modelled from the spec: a slot of the crossword, equal iff all four
identity fields match. -/
structure Variable where
  i : Nat
  j : Nat
  direction : Direction
  length : Nat
deriving DecidableEq

/-- A candidate word: a Python string as a list of characters. -/
abbrev Word := List Char

/-- A (partial) assignment: Python dict from Variable to word. -/
abbrev Assignment := List (Variable × Word)

/-- The domain store: Python dict from Variable to its candidate word set. -/
abbrev Domains := List (Variable × List Word)

/-- Python dict lookup d[k] (first matching entry; dicts never hold a key
twice). -/
def alookup {β : Type} : List (Variable × β) → Variable → Option β
  | [], _ => none
  | p :: rest, x => if p.1 = x then some p.2 else alookup rest x

/-- Python dict write d[k] = v: overwrite the existing entry in place,
otherwise append at the end (dict insertion-order semantics). -/
def aset {β : Type} : List (Variable × β) → Variable → β → List (Variable × β)
  | [], k, v => [(k, v)]
  | p :: rest, k, v => if p.1 = k then (k, v) :: rest else p :: aset rest k v

/-- The keys of a Python dict, in iteration order. -/
def keysOf {β : Type} (l : List (Variable × β)) : List Variable :=
  l.map (fun p => p.1)

/-- Python membership test: var in assignment. -/
def isAssigned (a : Assignment) (v : Variable) : Bool :=
  (alookup a v).isSome

/-- Modelled from the spec: the structural model (class Crossword of
crossword.py, not among the sources) exposes the slots, the word list and a
read-only overlap lookup; none means the two slots share no cell. -/
structure Crossword where
  vars : List Variable
  words : List Word
  overlaps : Variable → Variable → Option (Nat × Nat)

/-- Modelled from the spec: the neighbours of a slot are the other slots
that overlap with it (Crossword.neighbors iterates the slot set and keeps v
with overlaps[v, var] truthy). -/
def neighbors (cw : Crossword) (v : Variable) : List Variable :=
  cw.vars.filter (fun u => u != v && (cw.overlaps u v).isSome)

/-- Well-formedness of the structural model, from the spec: the overlap
lookup is irreflexive, symmetric with the offsets swapped, and offsets lie
inside the two slots. -/
def Crossword.WF (cw : Crossword) : Prop :=
  (∀ x, cw.overlaps x x = none) ∧
  (∀ x y i j, cw.overlaps x y = some (i, j) → cw.overlaps y x = some (j, i)) ∧
  (∀ x y i j, cw.overlaps x y = some (i, j) → i < x.length ∧ j < y.length)

/-- Overlap lookup backed by a finite table, used to build concrete
crosswords whose well-formedness is decidable. -/
def lookupT : List ((Variable × Variable) × (Nat × Nat)) → Variable × Variable →
    Option (Nat × Nat)
  | [], _ => none
  | e :: rest, k => if e.1 = k then some e.2 else lookupT rest k

def tableOverlaps (t : List ((Variable × Variable) × (Nat × Nat))) :
    Variable → Variable → Option (Nat × Nat) :=
  fun x y => lookupT t (x, y)

/-- A decidable sufficient condition on an overlap table for
well-formedness of the resulting crossword. -/
abbrev TableOk (t : List ((Variable × Variable) × (Nat × Nat))) : Prop :=
  (∀ e ∈ t, e.1.1 ≠ e.1.2) ∧
  (∀ e ∈ t, lookupT t (e.1.2, e.1.1) = some (e.2.2, e.2.1)) ∧
  (∀ e ∈ t, e.2.1 < e.1.1.length ∧ e.2.2 < e.1.2.length)

/-- CrosswordCreator.__init__: every slot starts with the full word list. -/
def initDomains (cw : Crossword) : Domains :=
  cw.vars.map (fun v => (v, cw.words))

/-- generate.py enforce_node_consistency: keep in each domain exactly the
words whose length equals the slot length. -/
def enforce_node_consistency (d : Domains) : Domains :=
  d.map (fun p => (p.1, p.2.filter (fun w => w.length == p.1.length)))

/-- The generator any(xWord[xi] == yWord[yi] for yWord in dy) inside revise;
none models an IndexError from either subscript. -/
def anyAgree (xw : Word) (xi yi : Nat) : List Word → Option Bool
  | [] => some false
  | yw :: rest =>
    match xw[xi]?, yw[yi]? with
    | some cx, some cy => if cx = cy then some true else anyAgree xw xi yi rest
    | _, _ => none

/-- The loop of revise that builds newXDomain; the domain of y is read from
the store at each iteration, as in the source, so a missing y raises only
once some xWord is examined. -/
def reviseLoop (xi yi : Nat) (d : Domains) (y : Variable) :
    List Word → Option (List Word)
  | [] => some []
  | xw :: rest =>
    match alookup d y with
    | none => none
    | some dy =>
      match anyAgree xw xi yi dy with
      | none => none
      | some b =>
        match reviseLoop xi yi d y rest with
        | none => none
        | some tail => some (if b then xw :: tail else tail)

/-- generate.py revise.  The source subscripts overlaps[x, y] before
anything else, so a missing overlap raises (none).  The Python test
newXDomain == domains[x] compares sets; since newXDomain is a filtered copy
of domains[x] (kept in iteration order) that coincides with list equality. -/
def revise (cw : Crossword) (d : Domains) (x y : Variable) :
    Option (Bool × Domains) :=
  match cw.overlaps x y with
  | none => none
  | some o =>
    match alookup d x with
    | none => none
    | some dx =>
      match reviseLoop o.1 o.2 d y dx with
      | none => none
      | some newX =>
        if newX = dx then some (false, d) else some (true, aset d x newX)

/-- ac3 seeding when arcs is None: every ordered pair (var, neighbour). -/
def seedArcs (cw : Crossword) (d : Domains) : List (Variable × Variable) :=
  (keysOf d).flatMap (fun v => (neighbors cw v).map (fun n => (v, n)))

/-- The worklist loop of ac3.  One unit of fuel is spent per Python loop
iteration; the wrapper below supplies more fuel than any terminating run
needs (each iteration either consumes an arc or strictly shrinks the total
domain size, and a shrink enqueues at most one arc per slot). -/
def ac3Loop (cw : Crossword) :
    Nat → Domains → List (Variable × Variable) → Option (Bool × Domains)
  | 0, _, _ => none
  | _ + 1, d, [] => some (true, d)
  | fuel + 1, d, (x, y) :: rest =>
    match revise cw d x y with
    | none => none
    | some (changed, dNew) =>
      if changed then
        match alookup dNew x with
        | none => none
        | some dx =>
          if dx.length = 0 then some (false, dNew)
          else ac3Loop cw fuel dNew
            (rest ++ ((neighbors cw x).filter (fun n => n != y)).map (fun n => (n, x)))
      else ac3Loop cw fuel dNew rest

/-- Total number of words across all domain entries. -/
def totalSize (d : Domains) : Nat :=
  (d.map (fun p => p.2.length)).sum

/-- Fuel bound for ac3: initial arcs, plus for every possible domain
shrink one iteration and at most |variables| enqueued arcs. -/
def ac3Fuel (cw : Crossword) (d : Domains) (arcs : List (Variable × Variable)) : Nat :=
  arcs.length + totalSize d * (cw.vars.length + 1) + 1

/-- generate.py ac3: with arcs = none the worklist is seeded with all
ordered neighbour pairs.  Returns false as soon as a revision empties a
domain, true when the worklist drains. -/
def ac3 (cw : Crossword) (d : Domains)
    (arcs : Option (List (Variable × Variable))) : Option (Bool × Domains) :=
  match arcs with
  | none => ac3Loop cw (ac3Fuel cw d (seedArcs cw d)) d (seedArcs cw d)
  | some l => ac3Loop cw (ac3Fuel cw d l) d l

/-- generate.py assignment_complete: every slot of the domain store is a key
of the assignment.  The Python test type(assignment[variable]) != str is
vacuous in this typed embedding, where assignment values are always words. -/
def assignment_complete (d : Domains) (a : Assignment) : Bool :=
  d.all (fun p => isAssigned a p.1)

/-- The duplicate-word test of consistent: two entries (in distinct dict
positions) carry the same word. -/
def hasDupWord : Assignment → Bool
  | [] => false
  | p :: rest => rest.any (fun q => q.2 == p.2) || hasDupWord rest

/-- The length test of consistent. -/
def lengthsOk (a : Assignment) : Bool :=
  a.all (fun p => p.1.length == p.2.length)

/-- The arcs collected inside consistent: for each assigned variable, its
assigned neighbours. -/
def arcsOf (cw : Crossword) (a : Assignment) : List (Variable × Variable) :=
  (keysOf a).flatMap
    (fun v => ((neighbors cw v).filter (fun n => isAssigned a n)).map (fun n => (v, n)))

/-- The arc check of consistent; none models an exception (missing overlap
for a claimed neighbour, or an out-of-range subscript). -/
def checkArcs (cw : Crossword) (a : Assignment) :
    List (Variable × Variable) → Option Bool
  | [] => some true
  | (x, y) :: rest =>
    match cw.overlaps x y with
    | none => none
    | some o =>
      match alookup a x, alookup a y with
      | some wx, some wy =>
        match wx[o.1]?, wy[o.2]? with
        | some cx, some cy => if cx ≠ cy then some false else checkArcs cw a rest
        | _, _ => none
      | _, _ => none

/-- generate.py consistent: duplicate words, then lengths, then all arcs
between assigned variables, in that order. -/
def consistent (cw : Crossword) (a : Assignment) : Option Bool :=
  if hasDupWord a then some false
  else if lengthsOk a = false then some false
  else checkArcs cw a (arcsOf cw a)

/-- The innermost loop of order_domain_values: how many words of one
neighbour domain disagree with w at the overlap (the overlap is subscripted
inside the loop, as in the source). -/
def countConflicts (cw : Crossword) (var nb : Variable) (w : Word) :
    List Word → Option Nat
  | [] => some 0
  | nw :: rest =>
    match cw.overlaps var nb with
    | none => none
    | some o =>
      match w[o.1]?, nw[o.2]? with
      | some c1, some c2 =>
        match countConflicts cw var nb w rest with
        | none => none
        | some c => some (c + if c1 ≠ c2 then 1 else 0)
      | _, _ => none

/-- The middle loop of order_domain_values, over the unassigned
neighbours. -/
def ruledOutLoop (cw : Crossword) (d : Domains) (var : Variable) (w : Word) :
    List Variable → Option Nat
  | [] => some 0
  | nb :: rest =>
    match alookup d nb with
    | none => none
    | some dn =>
      match countConflicts cw var nb w dn with
      | none => none
      | some c =>
        match ruledOutLoop cw d var w rest with
        | none => none
        | some r => some (c + r)

/-- choicesRuledOut for one candidate word of var: the number of
(unassigned neighbour, neighbour word) pairs ruled out by w. -/
def ruledOut (cw : Crossword) (d : Domains) (a : Assignment) (var : Variable)
    (w : Word) : Option Nat :=
  ruledOutLoop cw d var w ((neighbors cw var).filter (fun n => !(isAssigned a n)))

/-- domainOnChoices: each candidate of var paired with its ruled-out
count, in domain iteration order. -/
def buildCounts (cw : Crossword) (d : Domains) (a : Assignment) (var : Variable) :
    List Word → Option (List (Word × Nat))
  | [] => some []
  | w :: rest =>
    match ruledOut cw d a var w with
    | none => none
    | some c =>
      match buildCounts cw d a var rest with
      | none => none
      | some ps => some ((w, c) :: ps)

/-- Stable ascending insertion by count: this models Python sorted with a
key, which is a stable ascending sort. -/
def insertByCount (p : Word × Nat) : List (Word × Nat) → List (Word × Nat)
  | [] => [p]
  | q :: rest => if q.2 < p.2 then q :: insertByCount p rest else p :: q :: rest

def sortByCount (l : List (Word × Nat)) : List (Word × Nat) :=
  l.foldr insertByCount []

/-- generate.py order_domain_values: the candidates of var sorted ascending
by their ruled-out count. -/
def order_domain_values (cw : Crossword) (d : Domains) (var : Variable)
    (a : Assignment) : Option (List Word) :=
  match alookup d var with
  | none => none
  | some dv =>
    match buildCounts cw d a var dv with
    | none => none
    | some ps => some ((sortByCount ps).map (fun p => p.1))

/-- The running-minimum pass of select_unassigned_variable; the state is
(keys of fewestRemainingDomains in insertion order, lowestDomainVal), with
none standing for the initial float(inf). -/
def mrvFold (st : List Variable × Option Nat) (p : Variable × List Word) :
    List Variable × Option Nat :=
  match st.2 with
  | none => ([p.1], some p.2.length)
  | some m =>
    if p.2.length < m then ([p.1], some p.2.length)
    else if p.2.length = m then (st.1 ++ [p.1], some m)
    else st

/-- The running-maximum degree pass of select_unassigned_variable; the
state is (keys of largestDegree in insertion order, largestDegreeVal). -/
def degFold (cw : Crossword) (st : List Variable × Nat) (v : Variable) :
    List Variable × Nat :=
  if st.2 < (neighbors cw v).length then ([v], (neighbors cw v).length)
  else if (neighbors cw v).length = st.2 then (st.1 ++ [v], st.2)
  else st

/-- generate.py select_unassigned_variable.  With a complete assignment both
dicts stay empty and the final [key for key in largestDegree][0] raises
IndexError, modelled by head? returning none. -/
def select_unassigned_variable (cw : Crossword) (d : Domains) (a : Assignment) :
    Option Variable :=
  let few := ((d.filter (fun p => !(isAssigned a p.1))).foldl mrvFold ([], none)).1
  if few.length = 1 then few.head?
  else ((few.foldl (degFold cw) ([], 0)).1).head?

/-- The two mutually recursive pieces of generate.py backtrack: the call
itself, and its for-value loop.  The loop state records the current binding
of the local name assignment (cur), whether that name still aliases the
caller-supplied dict (aliased), and the current contents of the
caller-supplied dict object (parent): the source mutates the shared dict
(assignment[var] = value) and later rebinds the local name to a copy
(assignment = deepcopy(assignmentCopy)), so the first consistent value of
each exhausted call is left behind in the dict of the caller. -/
inductive BtCall where
  | top (a : Assignment)
  | loop (var : Variable) (vals : List Word) (aliased : Bool)
      (cur parent : Assignment)

/-- generate.py backtrack, fuel-indexed; one unit of fuel per call and per
loop iteration.  The result pairs the Python return value with the final
contents of the dict object the caller passed in. -/
def btGo (cw : Crossword) (d : Domains) :
    Nat → BtCall → Option (Option Assignment × Assignment)
  | 0, _ => none
  | fuel + 1, BtCall.top a =>
    if assignment_complete d a then some (some a, a)
    else
      match select_unassigned_variable cw d a with
      | none => none
      | some var =>
        match alookup d var with
        | none => none
        | some vals => btGo cw d fuel (BtCall.loop var vals true a a)
  | _ + 1, BtCall.loop _ [] _ _ parent => some (none, parent)
  | fuel + 1, BtCall.loop var (v :: rest) aliased cur parent =>
    match consistent cw (aset cur var v) with
    | none => none
    | some false => btGo cw d fuel (BtCall.loop var rest aliased cur parent)
    | some true =>
      match btGo cw d fuel (BtCall.top (aset cur var v)) with
      | none => none
      | some (res, after) =>
        match res with
        | some r => some (some r, if aliased then after else parent)
        | none =>
          btGo cw d fuel
            (BtCall.loop var rest false (aset cur var v)
              (if aliased then after else parent))

/-- Number of domain-store slots not yet assigned. -/
def missingCount (d : Domains) (a : Assignment) : Nat :=
  (d.filter (fun p => !(isAssigned a p.1))).length

/-- Fuel bound for backtrack: the search tree has depth at most the number
of unassigned slots, branching at most the largest domain, and each node
spends one unit per loop step. -/
def btFuel (d : Domains) (a : Assignment) : Nat :=
  (totalSize d + d.length + 2) ^ (missingCount d a + 2)

/-- generate.py backtrack: the returned value together with the final
contents of the dict the caller passed. -/
def backtrack (cw : Crossword) (d : Domains) (a : Assignment) :
    Option (Option Assignment × Assignment) :=
  btGo cw d (btFuel d a) (BtCall.top a)

/-- generate.py solve: node consistency, then ac3 with its Boolean result
discarded, then backtrack on the empty assignment.  The outer Option models
an exception escaping solve. -/
def solve (cw : Crossword) : Option (Option Assignment) :=
  match ac3 cw (enforce_node_consistency (initDomains cw)) none with
  | none => none
  | some (_, d2) => (backtrack cw d2 []).map (fun r => r.1)

/-! ### Predicates used in the statements (spec-side formulations) -/

/-- From the words of the spec: no two assigned slots carry the same word
(entries with distinct keys have distinct values). -/
def NoDupWords (a : Assignment) : Prop :=
  ∀ p ∈ a, ∀ q ∈ a, p.1 ≠ q.1 → p.2 ≠ q.2

/-- From the words of the spec: the word length of every assigned slot equals
the required length of the slot. -/
def LenMatch (a : Assignment) : Prop :=
  ∀ p ∈ a, p.2.length = p.1.length

/-- From the words of the spec: every pair of assigned slots that overlap agrees
on the letters at the overlap offsets. -/
def OverlapsAgree (cw : Crossword) (a : Assignment) : Prop :=
  ∀ p ∈ a, ∀ q ∈ a, ∀ i j, cw.overlaps p.1 q.1 = some (i, j) →
    ∃ c, p.2[i]? = some c ∧ q.2[j]? = some c

/-- From the words of the spec: in store d, candidate w of x has at least one
supporting candidate in the domain of y at the (x, y) overlap. -/
def Supported (cw : Crossword) (d : Domains) (x y : Variable) (w : Word) : Prop :=
  ∀ i j, cw.overlaps x y = some (i, j) →
    ∃ dy, alookup d y = some dy ∧ ∃ u ∈ dy, ∃ c, w[i]? = some c ∧ u[j]? = some c

/-- Arc (x, y) is consistent in store d: every candidate of x is
supported in the domain of y. -/
def ArcOK (cw : Crossword) (d : Domains) (x y : Variable) : Prop :=
  ∀ dx, alookup d x = some dx → ∀ w ∈ dx, Supported cw d x y w

/-- Loop invariant of the running-minimum pass of
select_unassigned_variable over the already-processed entries. -/
def MrvInv (processed : List (Variable × List Word))
    (st : List Variable × Option Nat) : Prop :=
  (st.2 = none → st.1 = [] ∧ processed = []) ∧
  (∀ m, st.2 = some m →
    st.1 ≠ [] ∧ (∀ v ∈ st.1, ∃ ws, (v, ws) ∈ processed ∧ ws.length = m) ∧
    (∀ q ∈ processed, m ≤ q.2.length) ∧
    (∀ q ∈ processed, q.2.length = m → q.1 ∈ st.1))

/-- Loop invariant of the running-maximum degree pass of
select_unassigned_variable. -/
def DegInv (cw : Crossword) (processed : List Variable)
    (st : List Variable × Nat) : Prop :=
  (∀ u ∈ st.1, u ∈ processed ∧ (neighbors cw u).length = st.2) ∧
  (∀ u ∈ processed, (neighbors cw u).length ≤ st.2) ∧
  (st.1 = [] → st.2 = 0) ∧
  (processed ≠ [] → st.1 ≠ [])

/-! ### Concrete instances used by counterexamples and witnesses -/

/-- Across slot of length 3 at (0,0). -/
def vX2 : Variable := ⟨0, 0, Direction.across, 3⟩

/-- Down slot of length 4 at (0,0). -/
def vY2 : Variable := ⟨0, 0, Direction.down, 4⟩

def t2 : List ((Variable × Variable) × (Nat × Nat)) :=
  [((vX2, vY2), (0, 0)), ((vY2, vX2), (0, 0))]

/-- Two crossing slots of lengths 3 and 4 whose only candidates disagree at
the shared cell: ac3 empties the length-3 domain and returns false. -/
def cw2 : Crossword :=
  ⟨[vX2, vY2], [['a', 'b', 'c'], ['w', 'x', 'y', 'z']], tableOverlaps t2⟩

/-- The domain store of cw2 after node consistency and the failing ac3. -/
def d2after : Domains := [(vX2, []), (vY2, [['w', 'x', 'y', 'z']])]

/-- Across slot of length 2 at (0,0). -/
def vX4 : Variable := ⟨0, 0, Direction.across, 2⟩

/-- Down slot of length 2 at (0,0). -/
def vY4 : Variable := ⟨0, 0, Direction.down, 2⟩

def t4 : List ((Variable × Variable) × (Nat × Nat)) :=
  [((vX4, vY4), (0, 0)), ((vY4, vX4), (0, 0))]

/-- Two crossing slots of length 2, used to exhibit the unused
least-constraining-value ordering. -/
def cw4 : Crossword := ⟨[vX4, vY4], [], tableOverlaps t4⟩

/-- A store where the first candidate of vX4 rules out two neighbour words
and the second rules out one, so the least-constraining order reverses the
iteration order. -/
def d4 : Domains :=
  [(vX4, [['a', 'a'], ['b', 'b']]),
   (vY4, [['a', 'c'], ['b', 'c'], ['b', 'd']])]

/-- Across slot of length 2 at (0,0). -/
def vX5 : Variable := ⟨0, 0, Direction.across, 2⟩

/-- Down slot of length 3 at (0,0). -/
def vY5 : Variable := ⟨0, 0, Direction.down, 3⟩

def t5 : List ((Variable × Variable) × (Nat × Nat)) :=
  [((vX5, vY5), (0, 0)), ((vY5, vX5), (0, 0))]

/-- A small solvable crossword: two crossing slots and one word of each
length, agreeing at the shared cell. -/
def cw5 : Crossword :=
  ⟨[vX5, vY5], [['a', 'b'], ['a', 'b', 'c']], tableOverlaps t5⟩

/-- The store of cw5 after node consistency. -/
def d5 : Domains := enforce_node_consistency (initDomains cw5)

/-- A crossword with two slots and no overlap at all. -/
def cw3 : Crossword := ⟨[vX5, vY5], [], tableOverlaps []⟩

/-! ### Association-list lemmas -/

@[simp] theorem keysOf_nil {β : Type} : keysOf ([] : List (Variable × β)) = [] := rfl

@[simp] theorem keysOf_cons {β : Type} (p : Variable × β) (l : List (Variable × β)) :
    keysOf (p :: l) = p.1 :: keysOf l := rfl

@[simp] theorem alookup_nil {β : Type} (x : Variable) :
    alookup ([] : List (Variable × β)) x = none := rfl

theorem alookup_cons {β : Type} (p : Variable × β) (l : List (Variable × β)) (x : Variable) :
    alookup (p :: l) x = if p.1 = x then some p.2 else alookup l x := rfl

theorem aset_cons {β : Type} (p : Variable × β) (l : List (Variable × β)) (k : Variable) (v : β) :
    aset (p :: l) k v = if p.1 = k then (k, v) :: l else p :: aset l k v := rfl

theorem alookup_mem {β : Type} {l : List (Variable × β)} {x : Variable} {v : β}
    (h : alookup l x = some v) : (x, v) ∈ l := by
  induction l with
  | nil => simp at h
  | cons p rest ih =>
    rw [alookup_cons] at h
    by_cases hp : p.1 = x
    · rw [if_pos hp] at h
      injection h with h
      rw [← hp, ← h]
      exact List.mem_cons_self _ _
    · rw [if_neg hp] at h
      exact List.mem_cons_of_mem _ (ih h)

theorem mem_keysOf {β : Type} {l : List (Variable × β)} {x : Variable} :
    x ∈ keysOf l ↔ ∃ v, (x, v) ∈ l := by
  induction l with
  | nil => simp
  | cons p rest ih =>
    simp only [keysOf_cons, List.mem_cons, ih]
    constructor
    · rintro (h | ⟨v, hv⟩)
      · exact ⟨p.2, Or.inl (by rw [h])⟩
      · exact ⟨v, Or.inr hv⟩
    · rintro ⟨v, h | hv⟩
      · left
        rw [← h]
      · exact Or.inr ⟨v, hv⟩

theorem mem_alookup {β : Type} {l : List (Variable × β)} {x : Variable} {v : β}
    (hnd : (keysOf l).Nodup) (h : (x, v) ∈ l) : alookup l x = some v := by
  induction l with
  | nil => simp at h
  | cons p rest ih =>
    rw [keysOf_cons, List.nodup_cons] at hnd
    rw [alookup_cons]
    rcases List.mem_cons.mp h with heq | hmem
    · rw [← heq]
      simp
    · have hx : p.1 ≠ x := by
        intro hc
        exact hnd.1 (by rw [hc]; exact mem_keysOf.mpr ⟨v, hmem⟩)
      rw [if_neg hx]
      exact ih hnd.2 hmem

theorem alookup_isSome_iff {β : Type} {l : List (Variable × β)} {x : Variable} :
    (alookup l x).isSome = true ↔ x ∈ keysOf l := by
  induction l with
  | nil => simp
  | cons p rest ih =>
    rw [alookup_cons, keysOf_cons, List.mem_cons]
    by_cases hp : p.1 = x
    · simp [hp]
    · rw [if_neg hp, ih]
      constructor
      · exact Or.inr
      · rintro (h | h)
        · exact absurd h.symm hp
        · exact h

theorem alookup_aset_self {β : Type} (l : List (Variable × β)) (k : Variable) (v : β) :
    alookup (aset l k v) k = some v := by
  induction l with
  | nil => simp [aset, alookup_cons]
  | cons p rest ih =>
    rw [aset_cons]
    by_cases hp : p.1 = k
    · rw [if_pos hp, alookup_cons, if_pos rfl]
    · rw [if_neg hp, alookup_cons, if_neg hp]
      exact ih

theorem alookup_aset_ne {β : Type} (l : List (Variable × β)) (k k' : Variable) (v : β)
    (h : k' ≠ k) : alookup (aset l k v) k' = alookup l k' := by
  induction l with
  | nil =>
    show (if k = k' then some v else none) = none
    rw [if_neg (fun hc => h hc.symm)]
  | cons p rest ih =>
    rw [aset_cons]
    by_cases hp : p.1 = k
    · subst hp
      have hpk : ¬ (p.1 = k') := fun hc => h hc.symm
      rw [if_pos rfl]
      show (if p.1 = k' then some v else alookup rest k') = alookup (p :: rest) k'
      rw [alookup_cons, if_neg hpk, if_neg hpk]
    · rw [if_neg hp, alookup_cons, alookup_cons]
      by_cases hp' : p.1 = k'
      · rw [if_pos hp', if_pos hp']
      · rw [if_neg hp', if_neg hp', ih]

theorem mem_keysOf_aset {β : Type} {l : List (Variable × β)} {k x : Variable} {v : β} :
    x ∈ keysOf (aset l k v) ↔ x ∈ keysOf l ∨ x = k := by
  induction l with
  | nil => simp [aset]
  | cons p rest ih =>
    rw [aset_cons]
    by_cases hp : p.1 = k
    · rw [if_pos hp, keysOf_cons, keysOf_cons, List.mem_cons, List.mem_cons, ← hp]
      tauto
    · rw [if_neg hp, keysOf_cons, keysOf_cons, List.mem_cons, List.mem_cons, ih]
      tauto

theorem keysOf_aset_of_mem {β : Type} {l : List (Variable × β)} {k : Variable} {v : β}
    (h : k ∈ keysOf l) : keysOf (aset l k v) = keysOf l := by
  induction l with
  | nil => simp at h
  | cons p rest ih =>
    rw [aset_cons]
    by_cases hp : p.1 = k
    · rw [if_pos hp, keysOf_cons, keysOf_cons, hp]
    · rw [keysOf_cons, List.mem_cons] at h
      rcases h with h | h
      · exact absurd h.symm hp
      · rw [if_neg hp, keysOf_cons, keysOf_cons, ih h]

theorem nodup_keys_aset {β : Type} {l : List (Variable × β)} {k : Variable} {v : β}
    (hnd : (keysOf l).Nodup) : (keysOf (aset l k v)).Nodup := by
  induction l with
  | nil => simp [aset]
  | cons p rest ih =>
    rw [keysOf_cons, List.nodup_cons] at hnd
    rw [aset_cons]
    by_cases hp : p.1 = k
    · rw [if_pos hp, keysOf_cons, List.nodup_cons]
      exact ⟨by rw [← hp]; exact hnd.1, hnd.2⟩
    · rw [if_neg hp, keysOf_cons, List.nodup_cons]
      constructor
      · intro hc
        rcases mem_keysOf_aset.mp hc with hm | hm
        · exact hnd.1 hm
        · exact hp hm
      · exact ih hnd.2

/-! ### Table-backed crossword well-formedness -/

theorem lookupT_mem {t : List ((Variable × Variable) × (Nat × Nat))}
    {k : Variable × Variable} {v : Nat × Nat}
    (h : lookupT t k = some v) : ∃ e ∈ t, e.1 = k ∧ e.2 = v := by
  induction t with
  | nil => simp [lookupT] at h
  | cons e rest ih =>
    by_cases he : e.1 = k
    · refine ⟨e, List.mem_cons_self _ _, he, ?_⟩
      have : lookupT (e :: rest) k = some e.2 := by
        show (if e.1 = k then some e.2 else lookupT rest k) = some e.2
        rw [if_pos he]
      rw [this] at h
      exact Option.some.inj h
    · have : lookupT (e :: rest) k = lookupT rest k := by
        show (if e.1 = k then some e.2 else lookupT rest k) = lookupT rest k
        rw [if_neg he]
      rw [this] at h
      obtain ⟨e2, hmem, hk, hv⟩ := ih h
      exact ⟨e2, List.mem_cons_of_mem _ hmem, hk, hv⟩

theorem tableOk_wf (vs : List Variable) (ws : List Word)
    (t : List ((Variable × Variable) × (Nat × Nat))) (h : TableOk t) :
    Crossword.WF ⟨vs, ws, tableOverlaps t⟩ := by
  obtain ⟨h1, h2, h3⟩ := h
  refine ⟨?_, ?_, ?_⟩
  · intro x
    show lookupT t (x, x) = none
    cases hc : lookupT t (x, x) with
    | none => rfl
    | some v =>
      obtain ⟨e, hmem, hk, _⟩ := lookupT_mem hc
      exfalso
      apply h1 e hmem
      have h11 : e.1.1 = x := by rw [hk]
      have h12 : e.1.2 = x := by rw [hk]
      rw [h11, h12]
  · intro x y i j hxy
    obtain ⟨e, hmem, hk, hv⟩ := lookupT_mem hxy
    have := h2 e hmem
    have h11 : e.1.1 = x := by rw [hk]
    have h12 : e.1.2 = y := by rw [hk]
    have h21 : e.2.1 = i := by rw [hv]
    have h22 : e.2.2 = j := by rw [hv]
    show lookupT t (y, x) = some (j, i)
    rw [← h11, ← h12, ← h21, ← h22]
    exact this
  · intro x y i j hxy
    obtain ⟨e, hmem, hk, hv⟩ := lookupT_mem hxy
    have := h3 e hmem
    have h11 : e.1.1 = x := by rw [hk]
    have h12 : e.1.2 = y := by rw [hk]
    have h21 : e.2.1 = i := by rw [hv]
    have h22 : e.2.2 = j := by rw [hv]
    rw [← h11, ← h12, ← h21, ← h22]
    exact this

/-! ### Node consistency -/

theorem alookup_enforce (d : Domains) (v : Variable) :
    alookup (enforce_node_consistency d) v =
      (alookup d v).map (fun ws => ws.filter (fun w => w.length == v.length)) := by
  induction d with
  | nil => rfl
  | cons p rest ih =>
    show alookup ((p.1, p.2.filter (fun w => w.length == p.1.length)) ::
        enforce_node_consistency rest) v = _
    rw [alookup_cons, alookup_cons]
    by_cases hp : p.1 = v
    · rw [if_pos hp, if_pos hp, hp]
      rfl
    · rw [if_neg hp, if_neg hp, ih]

theorem keysOf_enforce (d : Domains) :
    keysOf (enforce_node_consistency d) = keysOf d := by
  induction d with
  | nil => rfl
  | cons p rest ih =>
    show (p.1 :: keysOf (enforce_node_consistency rest)) = p.1 :: keysOf rest
    rw [ih]

theorem enforce_subset (d : Domains) (v : Variable) (ws2 : List Word)
    (h : alookup (enforce_node_consistency d) v = some ws2) :
    ∃ ws1, alookup d v = some ws1 ∧ ∀ w ∈ ws2, w ∈ ws1 := by
  rw [alookup_enforce] at h
  cases hv : alookup d v with
  | none => rw [hv] at h; exact Option.noConfusion h
  | some ws1 =>
    rw [hv] at h
    simp only [Option.map_some'] at h
    refine ⟨ws1, rfl, ?_⟩
    intro w hw
    rw [← Option.some.inj h] at hw
    exact (List.mem_filter.mp hw).1

/-- Claim C9: running enforce_node_consistency twice yields exactly the
domains of running it once. -/
theorem c9_node_consistency_idempotent (d : Domains) :
    enforce_node_consistency (enforce_node_consistency d) =
      enforce_node_consistency d := by
  unfold enforce_node_consistency
  rw [List.map_map]
  apply List.map_congr_left
  intro p _
  show (p.1, (p.2.filter (fun w => w.length == p.1.length)).filter
      (fun w => w.length == p.1.length)) = _
  rw [List.filter_filter]
  congr 1
  apply List.filter_congr
  intro w _
  rw [Bool.and_self]

/-- Claim C3, counterexample: on a crossword where the two slots have no
overlap, revise raises (none), it is not a no-op returning false. -/
theorem c3_counterexample : revise cw3 d5 vX5 vY5 = none := by decide

/-- Claim C3, amended: when x and y have no overlap, revise raises an
exception (the source subscripts the missing overlap), modelled by none; it
does not return false. -/
theorem c3_revise_no_overlap_raises (cw : Crossword) (d : Domains)
    (x y : Variable) (h : cw.overlaps x y = none) : revise cw d x y = none := by
  unfold revise
  rw [h]

theorem c3_witness : revise cw3 d5 vX5 vY5 = none :=
  c3_revise_no_overlap_raises cw3 d5 vX5 vY5 (by decide)

/-! ### revise lemmas -/

theorem anyAgree_true {xw : Word} {xi yi : Nat} {dy : List Word}
    (h : anyAgree xw xi yi dy = some true) :
    ∃ u ∈ dy, ∃ c, xw[xi]? = some c ∧ u[yi]? = some c := by
  induction dy with
  | nil => simp [anyAgree] at h
  | cons yw rest ih =>
    unfold anyAgree at h
    cases hx : xw[xi]? with
    | none => rw [hx] at h; exact Option.noConfusion h
    | some cx =>
      rw [hx] at h
      cases hy : yw[yi]? with
      | none => rw [hy] at h; exact Option.noConfusion h
      | some cy =>
        rw [hy] at h
        simp only [] at h
        by_cases hc : cx = cy
        · exact ⟨yw, List.mem_cons_self _ _, cx, rfl, by rw [hy, hc]⟩
        · rw [if_neg hc] at h
          obtain ⟨u, hu, c, h1, h2⟩ := ih h
          rw [hx] at h1
          exact ⟨u, List.mem_cons_of_mem _ hu, c, h1, h2⟩

theorem anyAgree_false {xw : Word} {xi yi : Nat} {dy : List Word}
    (h : anyAgree xw xi yi dy = some false) :
    ∀ u ∈ dy, ∃ cx cy, xw[xi]? = some cx ∧ u[yi]? = some cy ∧ cx ≠ cy := by
  induction dy with
  | nil => intro u hu; simp at hu
  | cons yw rest ih =>
    intro u hu
    unfold anyAgree at h
    cases hx : xw[xi]? with
    | none => rw [hx] at h; exact Option.noConfusion h
    | some cx =>
      rw [hx] at h
      cases hy : yw[yi]? with
      | none => rw [hy] at h; exact Option.noConfusion h
      | some cy =>
        rw [hy] at h
        simp only [] at h
        by_cases hc : cx = cy
        · rw [if_pos hc] at h
          simp at h
        · rw [if_neg hc] at h
          rcases List.mem_cons.mp hu with heq | hmem
          · exact ⟨cx, cy, rfl, by rw [heq]; exact hy, hc⟩
          · obtain ⟨cx2, cy2, h1, h2, h3⟩ := ih h u hmem
            rw [hx] at h1
            exact ⟨cx2, cy2, h1, h2, h3⟩

theorem reviseLoop_filter {xi yi : Nat} {d : Domains} {y : Variable} {dy : List Word}
    (hy : alookup d y = some dy) :
    ∀ {dx newX : List Word}, reviseLoop xi yi d y dx = some newX →
      newX = dx.filter (fun w => anyAgree w xi yi dy == some true) ∧
      ∀ w ∈ dx, (anyAgree w xi yi dy).isSome := by
  intro dx
  induction dx with
  | nil =>
    intro newX h
    refine ⟨(Option.some.inj h).symm, ?_⟩
    intro w hw
    simp at hw
  | cons xw rest ih =>
    intro newX h
    unfold reviseLoop at h
    rw [hy] at h
    simp only [] at h
    cases ha : anyAgree xw xi yi dy with
    | none => rw [ha] at h; exact Option.noConfusion h
    | some b =>
      rw [ha] at h
      cases hl : reviseLoop xi yi d y rest with
      | none => rw [hl] at h; exact Option.noConfusion h
      | some tail =>
        rw [hl] at h
        simp only [] at h
        obtain ⟨htail, hall⟩ := ih hl
        constructor
        · rw [← Option.some.inj h]
          cases b with
          | true =>
            simp only [List.filter_cons, ha]
            rw [htail]
            rfl
          | false =>
            simp only [List.filter_cons, ha]
            rw [htail]
            rfl
        · intro w hw
          rcases List.mem_cons.mp hw with heq | hmem
          · rw [heq, ha]; rfl
          · exact hall w hmem

theorem revise_eq_some {cw : Crossword} {d : Domains} {x y : Variable}
    {r : Bool × Domains} (h : revise cw d x y = some r) :
    ∃ o dx newX, cw.overlaps x y = some o ∧ alookup d x = some dx ∧
      reviseLoop o.1 o.2 d y dx = some newX ∧
      ((newX = dx ∧ r = (false, d)) ∨ (newX ≠ dx ∧ r = (true, aset d x newX))) := by
  unfold revise at h
  cases ho : cw.overlaps x y with
  | none => rw [ho] at h; exact Option.noConfusion h
  | some o =>
    rw [ho] at h
    simp only [] at h
    cases hx : alookup d x with
    | none => rw [hx] at h; exact Option.noConfusion h
    | some dx =>
      rw [hx] at h
      simp only [] at h
      cases hl : reviseLoop o.1 o.2 d y dx with
      | none => rw [hl] at h; exact Option.noConfusion h
      | some newX =>
        rw [hl] at h
        simp only [] at h
        refine ⟨o, dx, newX, rfl, rfl, hl, ?_⟩
        by_cases hne : newX = dx
        · rw [if_pos hne] at h
          exact Or.inl ⟨hne, (Option.some.inj h).symm⟩
        · rw [if_neg hne] at h
          exact Or.inr ⟨hne, (Option.some.inj h).symm⟩

theorem reviseLoop_cons_some {xi yi : Nat} {d : Domains} {y : Variable}
    {xw : Word} {rest newX : List Word}
    (h : reviseLoop xi yi d y (xw :: rest) = some newX) :
    ∃ dy, alookup d y = some dy := by
  unfold reviseLoop at h
  cases hy : alookup d y with
  | none => rw [hy] at h; exact Option.noConfusion h
  | some dy => exact ⟨dy, rfl⟩

theorem revise_false_eq {cw : Crossword} {d : Domains} {x y : Variable}
    {d2 : Domains} (h : revise cw d x y = some (false, d2)) : d2 = d := by
  obtain ⟨o, dx, newX, _, _, _, hcase⟩ := revise_eq_some h
  rcases hcase with ⟨_, heq⟩ | ⟨_, heq⟩
  · exact congrArg Prod.snd heq
  · exact Bool.noConfusion (congrArg Prod.fst heq)

theorem revise_true_spec {cw : Crossword} {d : Domains} {x y : Variable}
    {d2 : Domains} (h : revise cw d x y = some (true, d2)) :
    ∃ o dx dy newX, cw.overlaps x y = some o ∧ alookup d x = some dx ∧
      alookup d y = some dy ∧
      newX = dx.filter (fun w => anyAgree w o.1 o.2 dy == some true) ∧
      (∀ w ∈ dx, (anyAgree w o.1 o.2 dy).isSome) ∧
      newX ≠ dx ∧ d2 = aset d x newX := by
  obtain ⟨o, dx, newX, ho, hx, hl, hcase⟩ := revise_eq_some h
  rcases hcase with ⟨_, heq⟩ | ⟨hne, heq⟩
  · exact Bool.noConfusion (congrArg Prod.fst heq)
  · have h2 : d2 = aset d x newX := congrArg Prod.snd heq
    cases hdx : dx with
    | nil =>
      rw [hdx] at hl
      have hnil : newX = [] := (Option.some.inj hl).symm
      rw [hdx, hnil] at hne
      exact absurd rfl hne
    | cons xw rest =>
      rw [hdx] at hl
      obtain ⟨dy, hy⟩ := reviseLoop_cons_some hl
      obtain ⟨hfilter, hall⟩ := reviseLoop_filter hy hl
      refine ⟨o, dx, dy, newX, ho, hx, hy, ?_, ?_, hne, h2⟩
      · rw [hdx]; exact hfilter
      · rw [hdx]; exact hall

theorem revise_subset {cw : Crossword} {d : Domains} {x y : Variable}
    {b : Bool} {d2 : Domains} (h : revise cw d x y = some (b, d2)) :
    ∀ v ws2, alookup d2 v = some ws2 →
      ∃ ws1, alookup d v = some ws1 ∧ ∀ w ∈ ws2, w ∈ ws1 := by
  intro v ws2 hv
  cases b with
  | false =>
    rw [revise_false_eq h] at hv
    exact ⟨ws2, hv, fun w hw => hw⟩
  | true =>
    obtain ⟨o, dx, dy, newX, ho, hx, hy, hfilter, hall, hne, h2⟩ := revise_true_spec h
    by_cases hvx : v = x
    · subst hvx
      rw [h2, alookup_aset_self] at hv
      refine ⟨dx, hx, ?_⟩
      intro w hw
      rw [← Option.some.inj hv, hfilter] at hw
      exact (List.mem_filter.mp hw).1
    · rw [h2, alookup_aset_ne _ _ _ _ hvx] at hv
      exact ⟨ws2, hv, fun w hw => hw⟩

theorem revise_keys {cw : Crossword} {d : Domains} {x y : Variable}
    {b : Bool} {d2 : Domains} (h : revise cw d x y = some (b, d2)) :
    keysOf d2 = keysOf d := by
  cases b with
  | false => rw [revise_false_eq h]
  | true =>
    obtain ⟨o, dx, dy, newX, ho, hx, hy, hfilter, hall, hne, h2⟩ := revise_true_spec h
    rw [h2]
    exact keysOf_aset_of_mem (alookup_isSome_iff.mp (by rw [hx]; rfl))

/-! ### Arc-consistency support lemmas -/

theorem supported_of_anyAgree {cw : Crossword} {d : Domains} {x y : Variable}
    {o : Nat × Nat} {dy : List Word} {w : Word}
    (ho : cw.overlaps x y = some o) (hy : alookup d y = some dy)
    (ha : anyAgree w o.1 o.2 dy = some true) : Supported cw d x y w := by
  intro i j hij
  rw [ho] at hij
  have h1 : o.1 = i := congrArg Prod.fst (Option.some.inj hij)
  have h2 : o.2 = j := congrArg Prod.snd (Option.some.inj hij)
  obtain ⟨u, hu, c, hc1, hc2⟩ := anyAgree_true ha
  exact ⟨dy, hy, u, hu, c, h1 ▸ hc1, h2 ▸ hc2⟩

theorem arcOK_mono {cw : Crossword} {d d2 : Domains} {x y : Variable}
    (hy : alookup d2 y = alookup d y)
    (hx : ∀ dx2, alookup d2 x = some dx2 →
      ∃ dx1, alookup d x = some dx1 ∧ ∀ w ∈ dx2, w ∈ dx1)
    (hok : ArcOK cw d x y) : ArcOK cw d2 x y := by
  intro dx2 hx2 w hw
  obtain ⟨dx1, hx1, hsub⟩ := hx dx2 hx2
  have hsup := hok dx1 hx1 w (hsub w hw)
  intro i j hij
  obtain ⟨dy1, hy1, rest⟩ := hsup i j hij
  exact ⟨dy1, by rw [hy, hy1], rest⟩

theorem revise_false_arcOK {cw : Crossword} {d : Domains} {x y : Variable}
    {d2 : Domains} (h : revise cw d x y = some (false, d2)) :
    ArcOK cw d x y := by
  obtain ⟨o, dx, newX, ho, hx, hl, hcase⟩ := revise_eq_some h
  rcases hcase with ⟨heq, _⟩ | ⟨_, heq⟩
  · intro dx2 hx2 w hw
    rw [hx] at hx2
    have hdx2 : dx2 = dx := (Option.some.inj hx2).symm
    rw [hdx2] at hw
    cases dx with
    | nil => simp at hw
    | cons xw rest =>
      obtain ⟨dy, hy⟩ := reviseLoop_cons_some hl
      obtain ⟨hfilter, hall⟩ := reviseLoop_filter hy hl
      have hwmem : w ∈ newX := by
        rw [heq]
        exact hw
      rw [hfilter] at hwmem
      have hagree : anyAgree w o.1 o.2 dy = some true := by
        have := (List.mem_filter.mp hwmem).2
        simpa using this
      exact supported_of_anyAgree ho hy hagree
  · exact Bool.noConfusion (congrArg Prod.fst heq)

theorem revise_true_arcOK {cw : Crossword} {d : Domains} {x y : Variable}
    {d2 : Domains} (hwf : cw.WF) (h : revise cw d x y = some (true, d2)) :
    ArcOK cw d2 x y := by
  obtain ⟨o, dx, dy, newX, ho, hx, hy, hfilter, hall, hne, h2⟩ := revise_true_spec h
  have hxy : x ≠ y := by
    intro hc
    rw [hc, hwf.1 y] at ho
    exact Option.noConfusion ho
  intro dx2 hx2 w hw
  rw [h2, alookup_aset_self] at hx2
  have hdx2 : dx2 = newX := (Option.some.inj hx2).symm
  subst hdx2
  rw [hfilter] at hw
  have hagree : anyAgree w o.1 o.2 dy = some true := by
    have := (List.mem_filter.mp hw).2
    simpa using this
  apply supported_of_anyAgree ho ?_ hagree
  rw [h2, alookup_aset_ne _ _ _ _ (fun hc : y = x => hxy hc.symm)]
  exact hy

theorem revise_preserves_reverse {cw : Crossword} {d : Domains} {x y : Variable}
    {d2 : Domains} (hwf : cw.WF) (h : revise cw d x y = some (true, d2))
    (hok : ArcOK cw d y x) : ArcOK cw d2 y x := by
  obtain ⟨o, dx, dy, newX, ho, hx, hy, hfilter, hall, hne, h2⟩ := revise_true_spec h
  have hxy : x ≠ y := by
    intro hc
    rw [hc, hwf.1 y] at ho
    exact Option.noConfusion ho
  have hyx : cw.overlaps y x = some (o.2, o.1) := hwf.2.1 x y o.1 o.2 ho
  intro dy2 hy2 u hu
  rw [h2, alookup_aset_ne _ _ _ _ (fun hc : y = x => hxy hc.symm), hy] at hy2
  have hdy2 : dy2 = dy := (Option.some.inj hy2).symm
  rw [hdy2] at hu
  have hsup := hok dy hy u hu
  intro i j hij
  rw [hyx] at hij
  have hi : o.2 = i := congrArg Prod.fst (Option.some.inj hij)
  have hj : o.1 = j := congrArg Prod.snd (Option.some.inj hij)
  obtain ⟨dxold, hxold, w, hwmem, c, hc1, hc2⟩ := hsup o.2 o.1 hyx
  rw [hx] at hxold
  have hdxold : dxold = dx := (Option.some.inj hxold).symm
  subst hdxold
  refine ⟨newX, by rw [h2, alookup_aset_self], ?_⟩
  by_cases hwin : w ∈ newX
  · exact ⟨w, hwin, c, hi ▸ hc1, hj ▸ hc2⟩
  · exfalso
    have hfalse : anyAgree w o.1 o.2 dy = some false := by
      have hsome := hall w hwmem
      cases hcase : anyAgree w o.1 o.2 dy with
      | none => rw [hcase] at hsome; simp at hsome
      | some b =>
        cases b with
        | true =>
          exfalso
          apply hwin
          rw [hfilter]
          refine List.mem_filter.mpr ⟨hwmem, ?_⟩
          rw [hcase]
          rfl
        | false => rfl
    obtain ⟨cx, cy, hcx, hcy, hneq⟩ := anyAgree_false hfalse u hu
    rw [hc2] at hcx
    rw [hc1] at hcy
    exact hneq (by rw [← Option.some.inj hcx, ← Option.some.inj hcy])

/-! ### ac3 loop lemmas -/

theorem ac3Loop_succ_cons {cw : Crossword} {fuel : Nat} {d : Domains}
    {x y : Variable} {rest : List (Variable × Variable)} {r : Bool × Domains}
    (h : ac3Loop cw (fuel + 1) d ((x, y) :: rest) = some r) :
    ∃ changed dNew, revise cw d x y = some (changed, dNew) ∧
      ((changed = false ∧ ac3Loop cw fuel dNew rest = some r) ∨
       (changed = true ∧ ∃ dxw, alookup dNew x = some dxw ∧
         ((dxw.length = 0 ∧ r = (false, dNew)) ∨
          (dxw.length ≠ 0 ∧ ac3Loop cw fuel dNew
            (rest ++ ((neighbors cw x).filter (fun n => n != y)).map
              (fun n => (n, x))) = some r)))) := by
  simp only [ac3Loop] at h
  cases hr : revise cw d x y with
  | none => rw [hr] at h; exact Option.noConfusion h
  | some cd =>
    obtain ⟨changed, dNew⟩ := cd
    rw [hr] at h
    simp only [] at h
    refine ⟨changed, dNew, rfl, ?_⟩
    cases changed with
    | false =>
      rw [if_neg (by simp)] at h
      exact Or.inl ⟨rfl, h⟩
    | true =>
      rw [if_pos rfl] at h
      refine Or.inr ⟨rfl, ?_⟩
      cases hdx : alookup dNew x with
      | none => rw [hdx] at h; exact Option.noConfusion h
      | some dxw =>
        rw [hdx] at h
        simp only [] at h
        refine ⟨dxw, rfl, ?_⟩
        by_cases hlen : dxw.length = 0
        · rw [if_pos hlen] at h
          exact Or.inl ⟨hlen, (Option.some.inj h).symm⟩
        · rw [if_neg hlen] at h
          exact Or.inr ⟨hlen, h⟩

theorem ac3Loop_nil_eq {cw : Crossword} {fuel : Nat} {d : Domains}
    {r : Bool × Domains} (h : ac3Loop cw (fuel + 1) d [] = some r) :
    r = (true, d) := by
  simp only [ac3Loop] at h
  exact (Option.some.inj h).symm

theorem ac3Loop_subset {cw : Crossword} :
    ∀ (fuel : Nat) (d : Domains) (arcs : List (Variable × Variable))
      (b : Bool) (d2 : Domains),
      ac3Loop cw fuel d arcs = some (b, d2) →
      ∀ v ws2, alookup d2 v = some ws2 →
        ∃ ws1, alookup d v = some ws1 ∧ ∀ w ∈ ws2, w ∈ ws1 := by
  intro fuel
  induction fuel with
  | zero => intro d arcs b d2 h; exact Option.noConfusion h
  | succ fuel ih =>
    intro d arcs b d2 h
    cases arcs with
    | nil =>
      have heq := ac3Loop_nil_eq h
      have hd2 : d2 = d := congrArg Prod.snd heq
      intro v ws2 hv
      rw [hd2] at hv
      exact ⟨ws2, hv, fun w hw => hw⟩
    | cons arc rest =>
      obtain ⟨x, y⟩ := arc
      obtain ⟨changed, dNew, hr, hcase⟩ := ac3Loop_succ_cons h
      have step : ∀ v ws2, alookup d2 v = some ws2 →
          ∃ wsMid, alookup dNew v = some wsMid ∧ ∀ w ∈ ws2, w ∈ wsMid := by
        rcases hcase with ⟨_, hrec⟩ | ⟨_, dxw, hdx, hfin | hrec⟩
        · exact ih dNew rest b d2 hrec
        · intro v ws2 hv
          have : d2 = dNew := congrArg Prod.snd hfin.2
          rw [this] at hv
          exact ⟨ws2, hv, fun w hw => hw⟩
        · exact ih dNew _ b d2 hrec.2
      intro v ws2 hv
      obtain ⟨wsMid, hmid, hsub1⟩ := step v ws2 hv
      obtain ⟨ws1, h1, hsub2⟩ := revise_subset hr v wsMid hmid
      exact ⟨ws1, h1, fun w hw => hsub2 w (hsub1 w hw)⟩

theorem ac3Loop_keys {cw : Crossword} :
    ∀ (fuel : Nat) (d : Domains) (arcs : List (Variable × Variable))
      (b : Bool) (d2 : Domains),
      ac3Loop cw fuel d arcs = some (b, d2) → keysOf d2 = keysOf d := by
  intro fuel
  induction fuel with
  | zero => intro d arcs b d2 h; exact Option.noConfusion h
  | succ fuel ih =>
    intro d arcs b d2 h
    cases arcs with
    | nil =>
      have hd2 : d2 = d := congrArg Prod.snd (ac3Loop_nil_eq h)
      rw [hd2]
    | cons arc rest =>
      obtain ⟨x, y⟩ := arc
      obtain ⟨changed, dNew, hr, hcase⟩ := ac3Loop_succ_cons h
      have hk := revise_keys hr
      rcases hcase with ⟨_, hrec⟩ | ⟨_, dxw, hdx, hfin | hrec⟩
      · rw [ih dNew rest b d2 hrec, hk]
      · have hd2 : d2 = dNew := congrArg Prod.snd hfin.2
        rw [hd2, hk]
      · rw [ih dNew _ b d2 hrec.2, hk]

theorem ac3_subset {cw : Crossword} {d : Domains}
    {arcs : Option (List (Variable × Variable))} {b : Bool} {d2 : Domains}
    (h : ac3 cw d arcs = some (b, d2)) :
    ∀ v ws2, alookup d2 v = some ws2 →
      ∃ ws1, alookup d v = some ws1 ∧ ∀ w ∈ ws2, w ∈ ws1 := by
  cases arcs with
  | none => exact ac3Loop_subset _ _ _ _ _ h
  | some l => exact ac3Loop_subset _ _ _ _ _ h

theorem ac3_keys {cw : Crossword} {d : Domains}
    {arcs : Option (List (Variable × Variable))} {b : Bool} {d2 : Domains}
    (h : ac3 cw d arcs = some (b, d2)) : keysOf d2 = keysOf d := by
  cases arcs with
  | none => exact ac3Loop_keys _ _ _ _ _ h
  | some l => exact ac3Loop_keys _ _ _ _ _ h

/-- Claim C7: enforce_node_consistency, revise and ac3 only ever remove
words from domains: every domain after any of them is a subset of the
domain before. -/
theorem c7_monotonic_shrink (cw : Crossword) :
    (∀ d v ws2, alookup (enforce_node_consistency d) v = some ws2 →
      ∃ ws1, alookup d v = some ws1 ∧ ∀ w ∈ ws2, w ∈ ws1) ∧
    (∀ d x y b d2, revise cw d x y = some (b, d2) →
      ∀ v ws2, alookup d2 v = some ws2 →
        ∃ ws1, alookup d v = some ws1 ∧ ∀ w ∈ ws2, w ∈ ws1) ∧
    (∀ d arcs b d2, ac3 cw d arcs = some (b, d2) →
      ∀ v ws2, alookup d2 v = some ws2 →
        ∃ ws1, alookup d v = some ws1 ∧ ∀ w ∈ ws2, w ∈ ws1) := by
  refine ⟨?_, ?_, ?_⟩
  · intro d v ws2 h
    exact enforce_subset d v ws2 h
  · intro d x y b d2 h
    exact revise_subset h
  · intro d arcs b d2 h
    exact ac3_subset h

theorem mem_neighbors {cw : Crossword} {u v : Variable} :
    u ∈ neighbors cw v ↔
      u ∈ cw.vars ∧ u ≠ v ∧ (cw.overlaps u v).isSome = true := by
  unfold neighbors
  rw [List.mem_filter]
  constructor
  · rintro ⟨h1, h2⟩
    simp at h2
    exact ⟨h1, h2.1, h2.2⟩
  · rintro ⟨h1, h2, h3⟩
    refine ⟨h1, ?_⟩
    simp [h2, h3]

theorem seedArcs_mem {cw : Crossword} {d : Domains} {x y : Variable}
    (hx : x ∈ keysOf d) (hy : y ∈ neighbors cw x) :
    (x, y) ∈ seedArcs cw d := by
  unfold seedArcs
  exact List.mem_flatMap.mpr ⟨x, hx, List.mem_map.mpr ⟨y, hy, rfl⟩⟩

theorem ac3Loop_sound {cw : Crossword} (hwf : cw.WF) :
    ∀ (fuel : Nat) (d : Domains) (arcs : List (Variable × Variable)) (d2 : Domains),
      ac3Loop cw fuel d arcs = some (true, d2) →
      (∀ v ∈ keysOf d, v ∈ cw.vars) →
      (∀ x y, x ∈ keysOf d → y ∈ neighbors cw x →
        (x, y) ∈ arcs ∨ ArcOK cw d x y) →
      ∀ x y, x ∈ keysOf d2 → y ∈ neighbors cw x → ArcOK cw d2 x y := by
  intro fuel
  induction fuel with
  | zero =>
    intro d arcs d2 h
    exact absurd h (by simp [ac3Loop])
  | succ fuel ih =>
    intro d arcs d2 h hvars hinv
    cases arcs with
    | nil =>
      have hd2 : d2 = d := congrArg Prod.snd (ac3Loop_nil_eq h)
      subst hd2
      intro x y hx hy
      rcases hinv x y hx hy with hmem | hok
      · simp at hmem
      · exact hok
    | cons arc rest =>
      obtain ⟨x0, y0⟩ := arc
      obtain ⟨changed, dNew, hr, hcase⟩ := ac3Loop_succ_cons h
      rcases hcase with ⟨hch, hrec⟩ | ⟨hch, dxw, hdx, hfin | hrec⟩
      · -- revise made no change
        subst hch
        have hdeq : dNew = d := revise_false_eq hr
        rw [hdeq] at hrec hr
        apply ih d rest d2 hrec hvars
        intro x y hx hy
        by_cases hxy : (x, y) = (x0, y0)
        · right
          have h1 : x = x0 := congrArg Prod.fst hxy
          have h2 : y = y0 := congrArg Prod.snd hxy
          subst h1
          subst h2
          exact revise_false_arcOK hr
        · rcases hinv x y hx hy with hmem | hok
          · rcases List.mem_cons.mp hmem with heq | hmem2
            · exact absurd heq hxy
            · exact Or.inl hmem2
          · exact Or.inr hok
      · -- emptied domain: returns (false, dNew), contradicting the true result
        exact Bool.noConfusion (congrArg Prod.fst hfin.2)
      · -- revise shrank the domain of x0 and re-enqueued its arcs
        subst hch
        have hkeys : keysOf dNew = keysOf d := revise_keys hr
        obtain ⟨o, dxold, dyold, newX, ho, hxl, hyl, hfilter, hall, hne, hdnew⟩ :=
          revise_true_spec hr
        have hx0y0 : x0 ≠ y0 := by
          intro hc
          rw [hc, hwf.1 y0] at ho
          exact Option.noConfusion ho
        apply ih dNew _ d2 hrec.2
        · intro v hv
          exact hvars v (hkeys ▸ hv)
        · intro x y hx hy
          rw [hkeys] at hx
          by_cases hxy : (x, y) = (x0, y0)
          · right
            have h1 : x = x0 := congrArg Prod.fst hxy
            have h2 : y = y0 := congrArg Prod.snd hxy
            subst h1
            subst h2
            exact revise_true_arcOK hwf hr
          · rcases hinv x y hx hy with hmem | hok
            · rcases List.mem_cons.mp hmem with heq | hmem2
              · exact absurd heq hxy
              · exact Or.inl (List.mem_append_left _ hmem2)
            · by_cases hyx0 : y = x0
              · subst hyx0
                by_cases hxy0 : x = y0
                · subst hxy0
                  exact Or.inr (revise_preserves_reverse hwf hr hok)
                · left
                  apply List.mem_append_right
                  apply List.mem_map.mpr
                  refine ⟨x, ?_, rfl⟩
                  apply List.mem_filter.mpr
                  have hmem3 := mem_neighbors.mp hy
                  refine ⟨?_, by simp [hxy0]⟩
                  apply mem_neighbors.mpr
                  refine ⟨hvars x hx, fun hc => hmem3.2.1 hc.symm, ?_⟩
                  obtain ⟨oyx, hoyx⟩ := Option.isSome_iff_exists.mp hmem3.2.2
                  rw [hwf.2.1 y x oyx.1 oyx.2 (by rw [hoyx])]
                  rfl
              · right
                apply arcOK_mono ?_ ?_ hok
                · rw [hdnew, alookup_aset_ne _ _ _ _ hyx0]
                · intro dx2 hdx2
                  exact revise_subset hr x dx2 hdx2

/-- Claim C5: whenever ac3 is called with no initial arc list and returns
true, then for every ordered pair of neighbouring slots (x, y) and every
word remaining in the domain of x there is a supporting word in the domain
of y agreeing at the overlap offsets. -/
theorem c5_ac3_soundness (cw : Crossword) (d d2 : Domains) (x y : Variable)
    (hwf : cw.WF) (hvars : ∀ v ∈ keysOf d, v ∈ cw.vars)
    (hrun : ac3 cw d none = some (true, d2))
    (hx : x ∈ keysOf d) (hy : y ∈ neighbors cw x) :
    ∀ dx, alookup d2 x = some dx → ∀ w ∈ dx, Supported cw d2 x y w := by
  have hkeys := ac3_keys hrun
  have hloop : ac3Loop cw (ac3Fuel cw d (seedArcs cw d)) d (seedArcs cw d) =
      some (true, d2) := hrun
  exact ac3Loop_sound hwf _ d (seedArcs cw d) d2 hloop hvars
    (fun x' y' hx' hy' => Or.inl (seedArcs_mem hx' hy'))
    x y (by rw [hkeys]; exact hx) hy

theorem c5_witness : Supported cw5 d5 vX5 vY5 ['a', 'b'] :=
  c5_ac3_soundness cw5 d5 d5 vX5 vY5
    (tableOk_wf [vX5, vY5] [['a', 'b'], ['a', 'b', 'c']] t5 (by decide))
    (by decide) (by decide) (by decide) (by decide)
    [['a', 'b']] (by decide) ['a', 'b'] (by decide)

theorem c7_witness :
    ∃ ws1, alookup (initDomains cw5) vX5 = some ws1 ∧
      ∀ w ∈ [['a', 'b']], w ∈ ws1 :=
  (c7_monotonic_shrink cw5).1 (initDomains cw5) vX5 [['a', 'b']] (by decide)

/-- Claim C2 (code-bug evidence): on cw2, ac3 returns false (the domain of the
length-3 slot empties), yet solve still invokes the backtracking search on
the post-ac3 store: its "no solution" answer comes from exhaustion of the search itself, not a short circuit on the ac3 result, which line 93 of
generate.py discards. -/
theorem c2_solve_ignores_ac3_failure :
    ac3 cw2 (enforce_node_consistency (initDomains cw2)) none =
      some (false, d2after) ∧
    backtrack cw2 d2after [] = some (none, []) ∧
    solve cw2 = some none :=
  ⟨by decide, by decide, by decide⟩

/-- Claim C4 (code-bug evidence): backtrack iterates the domain store
directly, so the first value tried for vX4 is the head of its stored
domain, although order_domain_values puts the other word first; the
returned solution is built from the store-order first value. -/
theorem c4_backtrack_ignores_order :
    alookup d4 vX4 = some [['a', 'a'], ['b', 'b']] ∧
    order_domain_values cw4 d4 vX4 [] = some [['b', 'b'], ['a', 'a']] ∧
    (backtrack cw4 d4 []).map (fun r => r.1) =
      some (some [(vX4, ['a', 'a']), (vY4, ['a', 'c'])]) :=
  ⟨by decide, by decide, by decide⟩

/-! ### consistent lemmas -/

theorem hasDupWord_false_iff : ∀ {a : Assignment},
    hasDupWord a = false ↔ a.Pairwise (fun p q => p.2 ≠ q.2) := by
  intro a
  induction a with
  | nil => simp [hasDupWord]
  | cons p rest ih =>
    rw [List.pairwise_cons, ← ih]
    show (rest.any (fun q => q.2 == p.2) || hasDupWord rest) = false ↔ _
    rw [Bool.or_eq_false_iff]
    constructor
    · rintro ⟨h1, h2⟩
      refine ⟨?_, h2⟩
      intro q hq hc
      have := List.any_eq_false.mp h1 q hq
      simp at this
      exact this hc.symm
    · rintro ⟨h1, h2⟩
      refine ⟨?_, h2⟩
      apply List.any_eq_false.mpr
      intro q hq
      simp
      exact fun hc => h1 q hq hc.symm

theorem nodup_keys_pairwise {a : Assignment} (h : (keysOf a).Nodup) :
    a.Pairwise (fun p q => p.1 ≠ q.1) := by
  induction a with
  | nil => simp
  | cons p rest ih =>
    rw [keysOf_cons, List.nodup_cons] at h
    rw [List.pairwise_cons]
    refine ⟨?_, ih h.2⟩
    intro q hq hc
    exact h.1 (by rw [hc]; exact mem_keysOf.mpr ⟨q.2, hq⟩)

theorem checkArcs_true_of_mem {cw : Crossword} {a : Assignment} :
    ∀ {arcs : List (Variable × Variable)}, checkArcs cw a arcs = some true →
    ∀ x y, (x, y) ∈ arcs → ∃ o wx wy cx cy,
      cw.overlaps x y = some o ∧ alookup a x = some wx ∧ alookup a y = some wy ∧
      wx[o.1]? = some cx ∧ wy[o.2]? = some cy ∧ cx = cy := by
  intro arcs
  induction arcs with
  | nil => intro h x y hm; simp at hm
  | cons arc rest ih =>
    obtain ⟨x0, y0⟩ := arc
    intro h x y hm
    unfold checkArcs at h
    cases ho : cw.overlaps x0 y0 with
    | none => rw [ho] at h; exact Option.noConfusion h
    | some o =>
      rw [ho] at h
      simp only [] at h
      cases hwx : alookup a x0 with
      | none => rw [hwx] at h; simp only [] at h; exact Option.noConfusion h
      | some wx =>
        rw [hwx] at h
        cases hwy : alookup a y0 with
        | none => rw [hwy] at h; simp only [] at h; exact Option.noConfusion h
        | some wy =>
          rw [hwy] at h
          simp only [] at h
          cases hcx : wx[o.1]? with
          | none => rw [hcx] at h; simp only [] at h; exact Option.noConfusion h
          | some cx =>
            rw [hcx] at h
            cases hcy : wy[o.2]? with
            | none => rw [hcy] at h; simp only [] at h; exact Option.noConfusion h
            | some cy =>
              rw [hcy] at h
              simp only [] at h
              by_cases hcc : cx ≠ cy
              · rw [if_pos hcc] at h
                simp at h
              · rw [if_neg hcc] at h
                push_neg at hcc
                rcases List.mem_cons.mp hm with heq | hmem
                · have h1 : x = x0 := congrArg Prod.fst heq
                  have h2 : y = y0 := congrArg Prod.snd heq
                  subst h1
                  subst h2
                  exact ⟨o, wx, wy, cx, cy, ho, hwx, hwy, hcx, hcy, hcc⟩
                · exact ih h x y hmem

theorem checkArcs_true_of_all {cw : Crossword} {a : Assignment} :
    ∀ {arcs : List (Variable × Variable)},
    (∀ x y, (x, y) ∈ arcs → ∃ o wx wy c,
      cw.overlaps x y = some o ∧ alookup a x = some wx ∧ alookup a y = some wy ∧
      wx[o.1]? = some c ∧ wy[o.2]? = some c) →
    checkArcs cw a arcs = some true := by
  intro arcs
  induction arcs with
  | nil => intro _; rfl
  | cons arc rest ih =>
    obtain ⟨x0, y0⟩ := arc
    intro h
    obtain ⟨o, wx, wy, c, ho, hwx, hwy, hcx, hcy⟩ :=
      h x0 y0 (List.mem_cons_self _ _)
    unfold checkArcs
    rw [ho]
    simp only []
    rw [hwx, hwy]
    simp only []
    rw [hcx, hcy]
    simp only []
    rw [if_neg (fun hcc : c ≠ c => hcc rfl)]
    exact ih (fun x y hm => h x y (List.mem_cons_of_mem _ hm))

theorem mem_arcsOf {cw : Crossword} {a : Assignment} {x y : Variable} :
    (x, y) ∈ arcsOf cw a ↔
      x ∈ keysOf a ∧ y ∈ neighbors cw x ∧ isAssigned a y = true := by
  unfold arcsOf
  rw [List.mem_flatMap]
  constructor
  · rintro ⟨v, hv, hm⟩
    obtain ⟨n, hn, heq⟩ := List.mem_map.mp hm
    have hx : v = x := congrArg Prod.fst heq
    have hy : n = y := congrArg Prod.snd heq
    subst hx
    subst hy
    have := List.mem_filter.mp hn
    exact ⟨hv, this.1, this.2⟩
  · rintro ⟨h1, h2, h3⟩
    exact ⟨x, h1, List.mem_map.mpr ⟨y, List.mem_filter.mpr ⟨h2, h3⟩, rfl⟩⟩

theorem consistent_true_parts {cw : Crossword} {a : Assignment} :
    consistent cw a = some true ↔
      hasDupWord a = false ∧ lengthsOk a = true ∧
      checkArcs cw a (arcsOf cw a) = some true := by
  unfold consistent
  by_cases h1 : hasDupWord a = true
  · rw [if_pos h1]
    simp [h1]
  · have h1f : hasDupWord a = false := by
      revert h1
      cases hasDupWord a <;> simp
    rw [if_neg h1]
    by_cases h2 : lengthsOk a = false
    · rw [if_pos h2]
      simp [h1f, h2]
    · have h2t : lengthsOk a = true := by
        revert h2
        cases lengthsOk a <;> simp
      rw [if_neg h2]
      simp [h1f, h2t]

theorem consistent_iff_props (cw : Crossword) (a : Assignment)
    (hwf : cw.WF) (hnd : (keysOf a).Nodup)
    (hsub : ∀ v ∈ keysOf a, v ∈ cw.vars) :
    consistent cw a = some true ↔
      NoDupWords a ∧ LenMatch a ∧ OverlapsAgree cw a := by
  rw [consistent_true_parts]
  constructor
  · rintro ⟨h1, h2, h3⟩
    refine ⟨?_, ?_, ?_⟩
    · have hp := hasDupWord_false_iff.mp h1
      intro p hp1 q hq1 hne
      have hsymm : Symmetric (fun p q : Variable × Word => p.2 ≠ q.2) :=
        fun _ _ hcc => hcc.symm
      have hpq : p ≠ q := fun hc => hne (congrArg Prod.fst hc)
      exact hp.forall hsymm hp1 hq1 hpq
    · intro p hp1
      have := List.all_eq_true.mp h2 p hp1
      simp at this
      exact this.symm
    · intro p hp1 q hq1 i j hov
      by_cases hpq1 : p.1 = q.1
      · rw [hpq1, hwf.1 q.1] at hov
        exact Option.noConfusion hov
      · have hyn : q.1 ∈ neighbors cw p.1 := by
          apply mem_neighbors.mpr
          refine ⟨hsub q.1 (mem_keysOf.mpr ⟨q.2, hq1⟩),
            fun hc => hpq1 hc.symm, ?_⟩
          rw [hwf.2.1 p.1 q.1 i j hov]
          rfl
        have harc : (p.1, q.1) ∈ arcsOf cw a := by
          apply mem_arcsOf.mpr
          refine ⟨mem_keysOf.mpr ⟨p.2, hp1⟩, hyn, ?_⟩
          unfold isAssigned
          rw [mem_alookup hnd hq1]
          rfl
        obtain ⟨o, wx, wy, cx, cy, ho2, hwx, hwy, hcx, hcy, hcc⟩ :=
          checkArcs_true_of_mem h3 p.1 q.1 harc
        have hoo : o = (i, j) := Option.some.inj (ho2.symm.trans hov)
        have hwxp : p.2 = wx :=
          Option.some.inj ((mem_alookup hnd hp1).symm.trans hwx)
        have hwyq : q.2 = wy :=
          Option.some.inj ((mem_alookup hnd hq1).symm.trans hwy)
        refine ⟨cx, ?_, ?_⟩
        · rw [hwxp, show i = o.1 from by rw [hoo]]
          exact hcx
        · rw [hwyq, show j = o.2 from by rw [hoo], hcc]
          exact hcy
  · rintro ⟨h1, h2, h3⟩
    refine ⟨?_, ?_, ?_⟩
    · apply hasDupWord_false_iff.mpr
      exact List.Pairwise.imp_of_mem
        (fun {p q} hp hq hR => h1 p hp q hq hR) (nodup_keys_pairwise hnd)
    · apply List.all_eq_true.mpr
      intro p hp1
      simp
      exact (h2 p hp1).symm
    · apply checkArcs_true_of_all
      intro x y hm
      obtain ⟨hx, hyn, hyass⟩ := mem_arcsOf.mp hm
      obtain ⟨wx1, hwx1⟩ := mem_keysOf.mp hx
      obtain ⟨wy1, hwy1⟩ := Option.isSome_iff_exists.mp hyass
      have hwy1mem : (y, wy1) ∈ a := alookup_mem hwy1
      have hmemn := mem_neighbors.mp hyn
      obtain ⟨oyx, hoyx⟩ := Option.isSome_iff_exists.mp hmemn.2.2
      have hov : cw.overlaps x y = some (oyx.2, oyx.1) :=
        hwf.2.1 y x oyx.1 oyx.2 (by rw [hoyx])
      obtain ⟨c, hc1, hc2⟩ := h3 (x, wx1) hwx1 (y, wy1) hwy1mem oyx.2 oyx.1 hov
      exact ⟨(oyx.2, oyx.1), wx1, wy1, c, hov, mem_alookup hnd hwx1, hwy1, hc1, hc2⟩

/-- Claim C6: consistent(assignment) is true exactly when all assigned
words are pairwise distinct, every assigned word has the length of its slot, and
every overlapping pair of assigned slots agrees at the overlap offsets;
unassigned slots impose no constraint. -/
theorem c6_consistent_iff (cw : Crossword) (a : Assignment)
    (hwf : cw.WF) (hnd : (keysOf a).Nodup)
    (hsub : ∀ v ∈ keysOf a, v ∈ cw.vars) :
    consistent cw a = some true ↔
      NoDupWords a ∧ LenMatch a ∧ OverlapsAgree cw a :=
  consistent_iff_props cw a hwf hnd hsub

theorem c6_witness :
    consistent cw5 [(vX5, ['a', 'b']), (vY5, ['a', 'b', 'c'])] = some true ↔
      NoDupWords [(vX5, ['a', 'b']), (vY5, ['a', 'b', 'c'])] ∧
      LenMatch [(vX5, ['a', 'b']), (vY5, ['a', 'b', 'c'])] ∧
      OverlapsAgree cw5 [(vX5, ['a', 'b']), (vY5, ['a', 'b', 'c'])] :=
  c6_consistent_iff cw5 [(vX5, ['a', 'b']), (vY5, ['a', 'b', 'c'])]
    (tableOk_wf [vX5, vY5] [['a', 'b'], ['a', 'b', 'c']] t5 (by decide))
    (by decide) (by decide)

/-! ### order_domain_values lemmas -/

theorem buildCounts_spec {cw : Crossword} {d : Domains} {a : Assignment}
    {var : Variable} :
    ∀ {dv : List Word} {ps : List (Word × Nat)},
      buildCounts cw d a var dv = some ps →
      ps.map (fun p => p.1) = dv ∧
      ∀ p ∈ ps, ruledOut cw d a var p.1 = some p.2 := by
  intro dv
  induction dv with
  | nil =>
    intro ps h
    have hps : ps = [] := (Option.some.inj h).symm
    subst hps
    exact ⟨rfl, by intro p hp; simp at hp⟩
  | cons w rest ih =>
    intro ps h
    unfold buildCounts at h
    cases hr : ruledOut cw d a var w with
    | none => rw [hr] at h; exact Option.noConfusion h
    | some c =>
      rw [hr] at h
      simp only [] at h
      cases hb : buildCounts cw d a var rest with
      | none => rw [hb] at h; exact Option.noConfusion h
      | some ps2 =>
        rw [hb] at h
        simp only [] at h
        obtain ⟨hmap, hall⟩ := ih hb
        have hps : ps = (w, c) :: ps2 := (Option.some.inj h).symm
        subst hps
        refine ⟨by simp [hmap], ?_⟩
        intro p hp
        rcases List.mem_cons.mp hp with heq | hmem
        · rw [heq]
          exact hr
        · exact hall p hmem

theorem insertByCount_perm (p : Word × Nat) (l : List (Word × Nat)) :
    (insertByCount p l).Perm (p :: l) := by
  induction l with
  | nil => simp [insertByCount]
  | cons q rest ih =>
    unfold insertByCount
    by_cases hc : q.2 < p.2
    · rw [if_pos hc]
      exact (List.Perm.cons q ih).trans (List.Perm.swap p q rest)
    · rw [if_neg hc]

theorem sortByCount_perm (l : List (Word × Nat)) : (sortByCount l).Perm l := by
  induction l with
  | nil => simp [sortByCount]
  | cons p rest ih =>
    show (insertByCount p (sortByCount rest)).Perm (p :: rest)
    exact (insertByCount_perm p (sortByCount rest)).trans (List.Perm.cons p ih)

theorem insertByCount_pairwise {p : Word × Nat} {l : List (Word × Nat)}
    (h : l.Pairwise (fun u v => u.2 ≤ v.2)) :
    (insertByCount p l).Pairwise (fun u v => u.2 ≤ v.2) := by
  induction l with
  | nil => simp [insertByCount]
  | cons q rest ih =>
    rw [List.pairwise_cons] at h
    unfold insertByCount
    by_cases hc : q.2 < p.2
    · rw [if_pos hc]
      rw [List.pairwise_cons]
      constructor
      · intro u hu
        rcases List.mem_cons.mp ((insertByCount_perm p rest).mem_iff.mp hu) with
          heq | hmem
        · rw [heq]
          exact Nat.le_of_lt hc
        · exact h.1 u hmem
      · exact ih h.2
    · rw [if_neg hc]
      rw [List.pairwise_cons]
      constructor
      · intro u hu
        rcases List.mem_cons.mp hu with heq | hmem
        · rw [heq]
          exact Nat.le_of_not_lt hc
        · exact Nat.le_trans (Nat.le_of_not_lt hc) (h.1 u hmem)
      · rw [List.pairwise_cons]
        exact ⟨h.1, h.2⟩

theorem sortByCount_pairwise (l : List (Word × Nat)) :
    (sortByCount l).Pairwise (fun u v => u.2 ≤ v.2) := by
  induction l with
  | nil => simp [sortByCount]
  | cons p rest ih => exact insertByCount_pairwise ih

/-- Claim C8: for an unassigned variable, order_domain_values returns
exactly the words of its domain, sorted ascending by their ruled-out
count. -/
theorem c8_order_domain_values_sorted (cw : Crossword) (d : Domains)
    (a : Assignment) (var : Variable) (dv l : List Word)
    (_hvar : isAssigned a var = false)
    (hdv : alookup d var = some dv)
    (h : order_domain_values cw d var a = some l) :
    l.Perm dv ∧ l.Pairwise (fun w1 w2 => ∀ c1 c2,
      ruledOut cw d a var w1 = some c1 → ruledOut cw d a var w2 = some c2 →
      c1 ≤ c2) := by
  unfold order_domain_values at h
  rw [hdv] at h
  simp only [] at h
  cases hb : buildCounts cw d a var dv with
  | none => rw [hb] at h; exact Option.noConfusion h
  | some ps =>
    rw [hb] at h
    simp only [] at h
    have hl : l = (sortByCount ps).map (fun p => p.1) := (Option.some.inj h).symm
    obtain ⟨hmap, hall⟩ := buildCounts_spec hb
    have hperm : (sortByCount ps).Perm ps := sortByCount_perm ps
    constructor
    · rw [hl, ← hmap]
      exact hperm.map _
    · rw [hl, List.pairwise_map]
      apply List.Pairwise.imp_of_mem ?_ (sortByCount_pairwise ps)
      intro p q hp hq hpq c1 c2 hc1 hc2
      have hp2 := hall p (hperm.mem_iff.mp hp)
      have hq2 := hall q (hperm.mem_iff.mp hq)
      rw [← Option.some.inj (hp2.symm.trans hc1),
        ← Option.some.inj (hq2.symm.trans hc2)]
      exact hpq

theorem c8_witness :
    ([['b', 'b'], ['a', 'a']] : List Word).Perm [['a', 'a'], ['b', 'b']] ∧
    ([['b', 'b'], ['a', 'a']] : List Word).Pairwise (fun w1 w2 => ∀ c1 c2,
      ruledOut cw4 d4 [] vX4 w1 = some c1 →
      ruledOut cw4 d4 [] vX4 w2 = some c2 → c1 ≤ c2) :=
  c8_order_domain_values_sorted cw4 d4 [] vX4 [['a', 'a'], ['b', 'b']]
    [['b', 'b'], ['a', 'a']] (by decide) (by decide) (by decide)

/-! ### select_unassigned_variable lemmas -/

theorem mrvInv_base : MrvInv [] ([], (none : Option Nat)) :=
  ⟨fun _ => ⟨rfl, rfl⟩, fun _ hm => Option.noConfusion hm⟩

theorem mrvFold_step {processed : List (Variable × List Word)}
    {st : List Variable × Option Nat} (p : Variable × List Word)
    (h : MrvInv processed st) :
    MrvInv (processed ++ [p]) (mrvFold st p) := by
  obtain ⟨vs, mo⟩ := st
  cases mo with
  | none =>
    obtain ⟨hnone, _⟩ := h
    obtain ⟨hvs, hproc⟩ := hnone rfl
    subst hvs
    subst hproc
    have hred : mrvFold ([], none) p = ([p.1], some p.2.length) := rfl
    rw [hred]
    constructor
    · intro hc
      exact Option.noConfusion hc
    · intro m hm
      have hm2 : p.2.length = m := Option.some.inj hm
      refine ⟨by simp, ?_, ?_, ?_⟩
      · intro v hv
        have hv1 : v = p.1 := by simpa using hv
        exact ⟨p.2, by simp [hv1], hm2⟩
      · intro q hq
        have hq1 : q = p := by simpa using hq
        rw [hq1, ← hm2]
      · intro q hq _
        have hq1 : q = p := by simpa using hq
        simp [hq1]
  | some m0 =>
    obtain ⟨_, hsome⟩ := h
    obtain ⟨hne, hmem, hmin, hach⟩ := hsome m0 rfl
    by_cases hlt : p.2.length < m0
    · have hred : mrvFold (vs, some m0) p = ([p.1], some p.2.length) := by
        unfold mrvFold
        simp only []
        rw [if_pos hlt]
      rw [hred]
      constructor
      · intro hc
        exact Option.noConfusion hc
      · intro m hm
        have hm2 : p.2.length = m := Option.some.inj hm
        refine ⟨by simp, ?_, ?_, ?_⟩
        · intro v hv
          have hv1 : v = p.1 := by simpa using hv
          exact ⟨p.2, by simp [hv1], hm2⟩
        · intro q hq
          rcases List.mem_append.mp hq with hq1 | hq2
          · exact Nat.le_of_lt (Nat.lt_of_lt_of_le (hm2 ▸ hlt) (hmin q hq1))
          · have hq1 : q = p := by simpa using hq2
            rw [hq1, ← hm2]
        · intro q hq hqm
          rcases List.mem_append.mp hq with hq1 | hq2
          · exfalso
            have h1 := hmin q hq1
            rw [hqm, ← hm2] at h1
            exact Nat.lt_irrefl _ (Nat.lt_of_lt_of_le hlt h1)
          · have hq1 : q = p := by simpa using hq2
            simp [hq1]
    · by_cases heq2 : p.2.length = m0
      · have hred : mrvFold (vs, some m0) p = (vs ++ [p.1], some m0) := by
          unfold mrvFold
          simp only []
          rw [if_neg hlt, if_pos heq2]
        rw [hred]
        constructor
        · intro hc
          exact Option.noConfusion hc
        · intro m hm
          have hm2 : m0 = m := Option.some.inj hm
          subst hm2
          refine ⟨by simp [hne], ?_, ?_, ?_⟩
          · intro v hv
            rcases List.mem_append.mp hv with hv1 | hv2
            · obtain ⟨ws, hws, hlen⟩ := hmem v hv1
              exact ⟨ws, List.mem_append_left _ hws, hlen⟩
            · have hv1 : v = p.1 := by simpa using hv2
              exact ⟨p.2, List.mem_append_right _ (by simp [hv1]), heq2⟩
          · intro q hq
            rcases List.mem_append.mp hq with hq1 | hq2
            · exact hmin q hq1
            · have hq1 : q = p := by simpa using hq2
              rw [hq1, ← heq2]
          · intro q hq hqm
            rcases List.mem_append.mp hq with hq1 | hq2
            · exact List.mem_append_left _ (hach q hq1 hqm)
            · have hq1 : q = p := by simpa using hq2
              apply List.mem_append_right
              simp [hq1]
      · have hred : mrvFold (vs, some m0) p = (vs, some m0) := by
          unfold mrvFold
          simp only []
          rw [if_neg hlt, if_neg heq2]
        rw [hred]
        constructor
        · intro hc
          exact Option.noConfusion hc
        · intro m hm
          have hm2 : m0 = m := Option.some.inj hm
          subst hm2
          refine ⟨hne, ?_, ?_, ?_⟩
          · intro v hv
            obtain ⟨ws, hws, hlen⟩ := hmem v hv
            exact ⟨ws, List.mem_append_left _ hws, hlen⟩
          · intro q hq
            rcases List.mem_append.mp hq with hq1 | hq2
            · exact hmin q hq1
            · have hq1 : q = p := by simpa using hq2
              rw [hq1]
              exact Nat.le_of_not_lt hlt
          · intro q hq hqm
            rcases List.mem_append.mp hq with hq1 | hq2
            · exact hach q hq1 hqm
            · have hq1 : q = p := by simpa using hq2
              exfalso
              apply heq2
              rw [← hqm, hq1]
  
theorem mrvFold_foldl (l : List (Variable × List Word)) :
    ∀ {processed : List (Variable × List Word)} {st : List Variable × Option Nat},
      MrvInv processed st → MrvInv (processed ++ l) (l.foldl mrvFold st) := by
  induction l with
  | nil =>
    intro processed st h
    simpa using h
  | cons p rest ih =>
    intro processed st h
    have h3 := ih (mrvFold_step p h)
    simpa using h3

theorem degInv_base (cw : Crossword) : DegInv cw [] ([], 0) :=
  ⟨by simp, by simp, fun _ => rfl, fun hc => absurd rfl hc⟩

theorem degFold_step {cw : Crossword} {processed : List Variable}
    {st : List Variable × Nat} (v : Variable) (h : DegInv cw processed st) :
    DegInv cw (processed ++ [v]) (degFold cw st v) := by
  obtain ⟨h1, h2, h3, h4⟩ := h
  unfold degFold
  by_cases hlt : st.2 < (neighbors cw v).length
  · rw [if_pos hlt]
    refine ⟨?_, ?_, ?_, ?_⟩
    · intro u hu
      have hu1 : u = v := by simpa using hu
      subst hu1
      exact ⟨List.mem_append_right _ (by simp), rfl⟩
    · intro u hu
      rcases List.mem_append.mp hu with hu1 | hu2
      · exact Nat.le_of_lt (Nat.lt_of_le_of_lt (h2 u hu1) hlt)
      · have hu1 : u = v := by simpa using hu2
        simp [hu1]
    · intro hc
      simp at hc
    · intro _
      simp
  · by_cases heq2 : (neighbors cw v).length = st.2
    · rw [if_neg hlt, if_pos heq2]
      refine ⟨?_, ?_, ?_, ?_⟩
      · intro u hu
        rcases List.mem_append.mp hu with hu1 | hu2
        · obtain ⟨hm, hd⟩ := h1 u hu1
          exact ⟨List.mem_append_left _ hm, hd⟩
        · have hu1 : u = v := by simpa using hu2
          subst hu1
          exact ⟨List.mem_append_right _ (by simp), heq2⟩
      · intro u hu
        rcases List.mem_append.mp hu with hu1 | hu2
        · exact h2 u hu1
        · have hu1 : u = v := by simpa using hu2
          rw [hu1, heq2]
      · intro hc
        simp at hc
      · intro _
        simp
    · rw [if_neg hlt, if_neg heq2]
      refine ⟨?_, ?_, ?_, ?_⟩
      · intro u hu
        obtain ⟨hm, hd⟩ := h1 u hu
        exact ⟨List.mem_append_left _ hm, hd⟩
      · intro u hu
        rcases List.mem_append.mp hu with hu1 | hu2
        · exact h2 u hu1
        · have hu1 : u = v := by simpa using hu2
          rw [hu1]
          exact Nat.le_of_not_lt hlt
      · exact h3
      · intro _ hc
        have hz := h3 hc
        rw [hz] at hlt heq2
        exact heq2 (Nat.eq_zero_of_not_pos hlt)

theorem degFold_foldl (cw : Crossword) (l : List Variable) :
    ∀ {processed : List Variable} {st : List Variable × Nat},
      DegInv cw processed st → DegInv cw (processed ++ l) (l.foldl (degFold cw) st) := by
  induction l with
  | nil =>
    intro processed st h
    simpa using h
  | cons v rest ih =>
    intro processed st h
    have h3 := ih (degFold_step v h)
    simpa using h3

theorem select_eq (cw : Crossword) (d : Domains) (a : Assignment) :
    select_unassigned_variable cw d a =
      (if (((d.filter (fun p => !(isAssigned a p.1))).foldl mrvFold
          ([], none)).1).length = 1
       then (((d.filter (fun p => !(isAssigned a p.1))).foldl mrvFold
          ([], none)).1).head?
       else ((((((d.filter (fun p => !(isAssigned a p.1))).foldl mrvFold
          ([], none)).1)).foldl (degFold cw) ([], 0)).1).head?) := rfl

/-- Claim C10: with at least one unassigned slot,
select_unassigned_variable returns an unassigned slot with the fewest
remaining domain values, ties broken by most neighbours; with a complete
assignment both passes leave their dicts empty and the final [0] subscript
raises IndexError (none), which backtrack avoids by checking
assignment_complete first (an incomplete assignment always has an
unassigned slot, so the call is safe there). -/
theorem c10_select_unassigned (cw : Crossword) (d : Domains) (a : Assignment)
    (hnd : (keysOf d).Nodup) :
    ((∀ p ∈ d, isAssigned a p.1 = true) →
      select_unassigned_variable cw d a = none) ∧
    (assignment_complete d a = false →
      ∃ v ws, select_unassigned_variable cw d a = some v ∧
        isAssigned a v = false ∧ alookup d v = some ws ∧
        (∀ q ∈ d, isAssigned a q.1 = false → ws.length ≤ q.2.length) ∧
        (∀ q ∈ d, isAssigned a q.1 = false → q.2.length = ws.length →
          (neighbors cw q.1).length ≤ (neighbors cw v).length)) := by
  constructor
  · intro hall
    have hF : d.filter (fun p => !(isAssigned a p.1)) = [] := by
      apply List.filter_eq_nil_iff.mpr
      intro p hp
      rw [hall p hp]
      simp
    rw [select_eq, hF]
    rfl
  · intro hinc
    obtain ⟨p0, hp0, hp0f⟩ : ∃ p ∈ d, isAssigned a p.1 = false := by
      obtain ⟨x, hx, hpx⟩ := List.all_eq_false.mp hinc
      exact ⟨x, hx, by revert hpx; cases isAssigned a x.1 <;> simp⟩
    rw [select_eq]
    set F := d.filter (fun p => !(isAssigned a p.1)) with hFdef
    set stp := F.foldl mrvFold ([], none) with hstp
    have hp0F : p0 ∈ F :=
      List.mem_filter.mpr ⟨hp0, by rw [hp0f]; rfl⟩
    have hInv : MrvInv F stp := by
      have h0 := mrvFold_foldl F mrvInv_base
      rw [List.nil_append] at h0
      exact h0
    cases hm0 : stp.2 with
    | none =>
      obtain ⟨_, hproc⟩ := hInv.1 hm0
      rw [hproc] at hp0F
      simp at hp0F
    | some m =>
      obtain ⟨hne, hmem, hmin, hach⟩ := hInv.2 m hm0
      by_cases hlen : stp.1.length = 1
      · obtain ⟨v, hfew⟩ := List.length_eq_one.mp hlen
        obtain ⟨ws, hwsF, hwslen⟩ := hmem v (by rw [hfew]; simp)
        have hwsd : (v, ws) ∈ d := (List.mem_filter.mp hwsF).1
        have hvun : isAssigned a v = false := by
          have := (List.mem_filter.mp hwsF).2
          revert this
          cases isAssigned a v <;> simp
        refine ⟨v, ws, ?_, hvun, mem_alookup hnd hwsd, ?_, ?_⟩
        · rw [if_pos hlen, hfew]
          rfl
        · intro q hq hqun
          have hqF : q ∈ F := List.mem_filter.mpr ⟨hq, by rw [hqun]; rfl⟩
          rw [hwslen]
          exact hmin q hqF
        · intro q hq hqun hqlen
          have hqF : q ∈ F := List.mem_filter.mpr ⟨hq, by rw [hqun]; rfl⟩
          have hq1 : q.1 ∈ stp.1 := hach q hqF (by rw [hqlen, hwslen])
          rw [hfew] at hq1
          have : q.1 = v := by simpa using hq1
          rw [this]
      · set dst := stp.1.foldl (degFold cw) ([], 0) with hdst
        have hDeg : DegInv cw stp.1 dst := by
          have h0 := degFold_foldl cw stp.1 (degInv_base cw)
          rw [List.nil_append] at h0
          exact h0
        obtain ⟨hd1, hd2, _, hd4⟩ := hDeg
        cases hdst1 : dst.1 with
        | nil => exact absurd (hdst1 ▸ hd4 hne) (fun hc => hc rfl)
        | cons u us =>
          obtain ⟨huf, hudeg⟩ := hd1 u (by rw [hdst1]; simp)
          obtain ⟨ws, hwsF, hwslen⟩ := hmem u huf
          have hwsd : (u, ws) ∈ d := (List.mem_filter.mp hwsF).1
          have huun : isAssigned a u = false := by
            have := (List.mem_filter.mp hwsF).2
            revert this
            cases isAssigned a u <;> simp
          refine ⟨u, ws, ?_, huun, mem_alookup hnd hwsd, ?_, ?_⟩
          · rw [if_neg hlen]
            rfl
          · intro q hq hqun
            have hqF : q ∈ F := List.mem_filter.mpr ⟨hq, by rw [hqun]; rfl⟩
            rw [hwslen]
            exact hmin q hqF
          · intro q hq hqun hqlen
            have hqF : q ∈ F := List.mem_filter.mpr ⟨hq, by rw [hqun]; rfl⟩
            have hq1 : q.1 ∈ stp.1 := hach q hqF (by rw [hqlen, hwslen])
            rw [hudeg]
            exact hd2 q.1 hq1

theorem c10_witness :
    ∃ v ws, select_unassigned_variable cw5 d5 [] = some v ∧
      isAssigned [] v = false ∧ alookup d5 v = some ws ∧
      (∀ q ∈ d5, isAssigned [] q.1 = false → ws.length ≤ q.2.length) ∧
      (∀ q ∈ d5, isAssigned [] q.1 = false → q.2.length = ws.length →
        (neighbors cw5 q.1).length ≤ (neighbors cw5 v).length) :=
  (c10_select_unassigned cw5 d5 [] (by decide)).2 (by decide)

/-! ### backtrack lemmas -/

theorem assignment_complete_true {d : Domains} {a : Assignment}
    (h : assignment_complete d a = true) :
    ∀ v ∈ keysOf d, isAssigned a v = true := by
  intro v hv
  obtain ⟨ws, hws⟩ := mem_keysOf.mp hv
  exact List.all_eq_true.mp h (v, ws) hws

theorem select_some_spec {cw : Crossword} {d : Domains} {a : Assignment}
    {v : Variable} (h : select_unassigned_variable cw d a = some v) :
    v ∈ keysOf d ∧ isAssigned a v = false := by
  rw [select_eq] at h
  set F := d.filter (fun p => !(isAssigned a p.1)) with hFdef
  set stp := F.foldl mrvFold ([], none) with hstp
  have hInv : MrvInv F stp := by
    have h0 := mrvFold_foldl F mrvInv_base
    rw [List.nil_append] at h0
    exact h0
  have hv1 : v ∈ stp.1 := by
    by_cases hlen : stp.1.length = 1
    · rw [if_pos hlen] at h
      exact List.mem_of_mem_head? (by rw [h]; rfl)
    · rw [if_neg hlen] at h
      set dst := stp.1.foldl (degFold cw) ([], 0) with hdst
      have hDeg : DegInv cw stp.1 dst := by
        have h0 := degFold_foldl cw stp.1 (degInv_base cw)
        rw [List.nil_append] at h0
        exact h0
      have hvdst : v ∈ dst.1 := List.mem_of_mem_head? (by rw [h]; rfl)
      exact (hDeg.1 v hvdst).1
  cases hm0 : stp.2 with
  | none =>
    obtain ⟨hvs, _⟩ := hInv.1 hm0
    rw [hvs] at hv1
    simp at hv1
  | some m =>
    obtain ⟨_, hmem, _, _⟩ := hInv.2 m hm0
    obtain ⟨ws, hwsF, _⟩ := hmem v hv1
    have hd := (List.mem_filter.mp hwsF).1
    have hun := (List.mem_filter.mp hwsF).2
    refine ⟨mem_keysOf.mpr ⟨ws, hd⟩, ?_⟩
    revert hun
    cases isAssigned a v <;> simp

theorem btGo_sound {cw : Crossword} {d : Domains} (hwf : cw.WF)
    (hkeys : ∀ v ∈ keysOf d, v ∈ cw.vars)
    (hkeys2 : ∀ v ∈ cw.vars, v ∈ keysOf d) :
    ∀ fuel : Nat,
      (∀ a res st, btGo cw d fuel (BtCall.top a) = some (res, st) →
        (keysOf a).Nodup → (∀ v ∈ keysOf a, v ∈ keysOf d) →
        consistent cw a = some true →
        res = none ∨ ∃ r, res = some r ∧
          (∀ v ∈ cw.vars, isAssigned r v = true) ∧
          NoDupWords r ∧ LenMatch r ∧ OverlapsAgree cw r) ∧
      (∀ var vals aliased cur parent res st,
        btGo cw d fuel (BtCall.loop var vals aliased cur parent) =
          some (res, st) →
        var ∈ keysOf d → (keysOf cur).Nodup →
        (∀ v ∈ keysOf cur, v ∈ keysOf d) →
        res = none ∨ ∃ r, res = some r ∧
          (∀ v ∈ cw.vars, isAssigned r v = true) ∧
          NoDupWords r ∧ LenMatch r ∧ OverlapsAgree cw r) := by
  intro fuel
  induction fuel with
  | zero =>
    constructor
    · intro a res st h
      exact Option.noConfusion h
    · intro var vals aliased cur parent res st h
      exact Option.noConfusion h
  | succ fuel ih =>
    obtain ⟨ihP, ihQ⟩ := ih
    constructor
    · intro a res st h hnd hsub hcons
      simp only [btGo] at h
      by_cases hcomp : assignment_complete d a = true
      · rw [if_pos hcomp] at h
        have heq := Option.some.inj h
        have hres : res = some a := (congrArg Prod.fst heq).symm
        right
        refine ⟨a, hres, ?_, ?_⟩
        · intro v hv
          exact assignment_complete_true hcomp v (hkeys2 v hv)
        · exact (consistent_iff_props cw a hwf hnd
            (fun v hv => hkeys v (hsub v hv))).mp hcons
      · rw [if_neg hcomp] at h
        cases hsel : select_unassigned_variable cw d a with
        | none => rw [hsel] at h; exact Option.noConfusion h
        | some var =>
          rw [hsel] at h
          try simp only [] at h
          cases hvals : alookup d var with
          | none => rw [hvals] at h; exact Option.noConfusion h
          | some vals =>
            rw [hvals] at h
            try simp only [] at h
            exact ihQ var vals true a a res st h (select_some_spec hsel).1 hnd hsub
    · intro var vals aliased cur parent res st h hvar hnd hsub
      cases vals with
      | nil =>
        simp only [btGo] at h
        have heq := Option.some.inj h
        exact Or.inl (congrArg Prod.fst heq).symm
      | cons v rest =>
        simp only [btGo] at h
        cases hcons : consistent cw (aset cur var v) with
        | none => rw [hcons] at h; exact Option.noConfusion h
        | some b =>
          rw [hcons] at h
          try simp only [] at h
          cases b with
          | false =>
            exact ihQ var rest aliased cur parent res st h hvar hnd hsub
          | true =>
            cases hrec : btGo cw d fuel (BtCall.top (aset cur var v)) with
            | none => rw [hrec] at h; exact Option.noConfusion h
            | some ra =>
              obtain ⟨res2, after⟩ := ra
              rw [hrec] at h
              try simp only [] at h
              have hnd2 : (keysOf (aset cur var v)).Nodup := nodup_keys_aset hnd
              have hsub2 : ∀ u ∈ keysOf (aset cur var v), u ∈ keysOf d := by
                intro u hu
                rcases mem_keysOf_aset.mp hu with hu1 | hu2
                · exact hsub u hu1
                · rw [hu2]
                  exact hvar
              have hinner := ihP (aset cur var v) res2 after hrec hnd2 hsub2 hcons
              cases res2 with
              | some r =>
                try simp only [] at h
                have heq := Option.some.inj h
                have hres : res = some r := (congrArg Prod.fst heq).symm
                rcases hinner with hnone | ⟨r2, hr2, hrest⟩
                · exact Option.noConfusion hnone
                · have hr2r : r2 = r := (Option.some.inj hr2).symm
                  right
                  rw [← hr2r] at hres
                  exact ⟨r2, hres, hrest⟩
              | none =>
                try simp only [] at h
                exact ihQ var rest false (aset cur var v)
                  (if aliased = true then after else parent) res st h hvar hnd2 hsub2

/-- Claim C1: solve returns either the no-solution signal or an assignment
that is complete (every slot of the domain store assigned) and consistent
(pairwise-distinct words, matching lengths, agreeing overlaps); no partial
assignment is ever returned. -/
theorem c1_solve_sound (cw : Crossword) (res : Option Assignment)
    (hwf : cw.WF) (h : solve cw = some res) :
    res = none ∨ ∃ r, res = some r ∧
      (∀ v ∈ cw.vars, isAssigned r v = true) ∧
      NoDupWords r ∧ LenMatch r ∧ OverlapsAgree cw r := by
  unfold solve at h
  cases hac : ac3 cw (enforce_node_consistency (initDomains cw)) none with
  | none => rw [hac] at h; exact Option.noConfusion h
  | some bd =>
    obtain ⟨b, d2⟩ := bd
    rw [hac] at h
    try simp only [] at h
    cases hbt : backtrack cw d2 [] with
    | none => rw [hbt] at h; exact Option.noConfusion h
    | some rs =>
      obtain ⟨res2, st⟩ := rs
      rw [hbt] at h
      simp only [Option.map_some'] at h
      have hres : res2 = res := Option.some.inj h
      have hkeys0 : keysOf (initDomains cw) = cw.vars := by
        simp [initDomains, keysOf, List.map_map]
        exact List.map_id _
      have hkeysd2 : keysOf d2 = cw.vars := by
        rw [ac3_keys hac, keysOf_enforce, hkeys0]
      have hsound := (btGo_sound hwf
        (fun v hv => by rw [hkeysd2] at hv; exact hv)
        (fun v hv => by rw [hkeysd2]; exact hv)
        (btFuel d2 [])).1 [] res2 st hbt (by simp) (by simp) rfl
      rw [hres] at hsound
      exact hsound

theorem c1_witness :
    (some [(vX5, ['a', 'b']), (vY5, ['a', 'b', 'c'])] : Option Assignment) =
        none ∨
      ∃ r, (some [(vX5, ['a', 'b']), (vY5, ['a', 'b', 'c'])] :
          Option Assignment) = some r ∧
        (∀ v ∈ cw5.vars, isAssigned r v = true) ∧
        NoDupWords r ∧ LenMatch r ∧ OverlapsAgree cw5 r :=
  c1_solve_sound cw5 (some [(vX5, ['a', 'b']), (vY5, ['a', 'b', 'c'])])
    (tableOk_wf [vX5, vY5] [['a', 'b'], ['a', 'b', 'c']] t5 (by decide))
    (by decide)
